import Mathlib

/-!
The dwimsh shell, the "do what I mean" shell of `shell.c`.

A shallow embedding of the command-resolution pipeline of `shell.c` and the
properties of its fuzzy matcher.

Conventions of the embedding.

* A C string is modelled by the list of its characters before the terminating
  NUL (`CStr`).  `strlen` is the length of that list and `s[i]` for
  `i ≤ strlen s` is `charAt s i` (the terminator is read as `'\x00'`).
* `int` values are modelled by `Int`.  All the integers computed here are
  bounded by the length of a command name or of an input line (at most 255 and
  80 bytes), far from `2^31`, so no wrap-around is modelled.
* A counted `for` loop is modelled by `forLoop`.
* Memory allocation is assumed to succeed.
-/

set_option autoImplicit false
set_option maxRecDepth 4000

namespace Dwimsh

/-! ## Basic vocabulary -/

/-- A C string: its characters up to, and without, the terminating NUL. -/
abbrev CStr := List Char

/-- The value of `s[i]`: a character of the string, or the terminating NUL at
`i = strlen s`. -/
def charAt (s : CStr) (i : Nat) : Char := s.getD i '\x00'

/-- The loop `for (k = lo; k < lo + n; k++) st = body k st`: the bodies
`body lo`, `body (lo+1)`, ..., `body (lo+n-1)` applied in this order. -/
def forLoop {σ : Type} (lo : Nat) : Nat → (Nat → σ → σ) → σ → σ
  | 0, _, st => st
  | n + 1, body, st => body (lo + n) (forLoop lo n body st)

/-- The constant `MAX_LINE`: the maximum number of characters of a command line. -/
def MAX_LINE : Nat := 80

/-! ## `hammingDistance` (shell.c 223-230) -/

/-- The function `hammingDistance`: `-1` when the lengths differ, otherwise
the counter `count` after the loop `for (i = 0; first[i] != '\0'; i++)`. -/
def hammingDistance (first second : CStr) : Int :=
  if first.length ≠ second.length then -1
  else
    forLoop 0 first.length
      (fun i (count : Int) => if charAt first i ≠ charAt second i then count + 1 else count) 0

/-! ## `min` and `levenshteinDistance` (shell.c 239-290) -/

/-- The function `min` of the source (minimum of three integers):
`a < b ? (a < c ? a : c) : (b < c ? b : c)`. -/
def min3 (a b c : Int) : Int :=
  if a < b then (if a < c then a else c) else (if b < c then b else c)

/-- The matrix `dp`: `dp.get i j` is the entry `dp[i][j]`. -/
structure Table where
  get : Nat → Nat → Int

/-- The assignment `dp[i][j] = v`. -/
def Table.assign (dp : Table) (i j : Nat) (v : Int) : Table :=
  ⟨fun a b => if a = i ∧ b = j then v else dp.get a b⟩

/-- The two base-case loops: `dp[i][0] = i` for `i ≤ len1`, then `dp[0][j] = j`
for `j ≤ len2`. -/
def levInit (len1 len2 : Nat) (dp : Table) : Table :=
  let dp := forLoop 0 (len1 + 1) (fun i dp => dp.assign i 0 (i : Int)) dp
  forLoop 0 (len2 + 1) (fun j dp => dp.assign 0 j (j : Int)) dp

/-- The body of the inner loop at `(i, j)`: the minimum of deletion, insertion
and substitution is stored, and then, when the last two characters of the two
prefixes are swapped, overwritten by `dp[i-2][j-2] + 1`. -/
def levStep (s1 s2 : CStr) (i j : Nat) (dp : Table) : Table :=
  let cost : Int := if charAt s1 (i - 1) = charAt s2 (j - 1) then 0 else 1
  let dp := dp.assign i j
    (min3 (dp.get (i - 1) j + 1) (dp.get i (j - 1) + 1) (dp.get (i - 1) (j - 1) + cost))
  if i > 1 ∧ j > 1 ∧ charAt s1 (i - 1) = charAt s2 (j - 2) ∧ charAt s1 (i - 2) = charAt s2 (j - 1)
  then dp.assign i j (dp.get (i - 2) (j - 2) + 1)
  else dp

/-- The nested loops `for (i = 1; i <= len1; i++) for (j = 1; j <= len2; j++)`. -/
def levFill (s1 s2 : CStr) (dp : Table) : Table :=
  forLoop 1 s1.length (fun i dp => forLoop 1 s2.length (fun j dp => levStep s1 s2 i j dp) dp) dp

/-- The matrix at the end of `levenshteinDistance`, from the content `dp0` of
the freshly allocated (uninitialised) rows. -/
def levTable (dp0 : Table) (s1 s2 : CStr) : Table :=
  levFill s1 s2 (levInit s1.length s2.length dp0)

/-- The function `levenshteinDistance`: the entry `dp[len1][len2]`.  Every
entry is written before it is read, so the content of the fresh rows (here
`0`) does not matter, see `levTable_eq_levCell`. -/
def levenshteinDistance (s1 s2 : CStr) : Int :=
  (levTable ⟨fun _ _ => 0⟩ s1 s2).get s1.length s2.length

/-! ## `closestMatches` (shell.c 301-327) -/

/-- The array `result` of `closestMatches`: ten pointers, `none` for `NULL`. -/
abbrev MatchSet := List (Option CStr)

/-- The loop `for (i = 0; commands[i] != NULL; i++)` of `closestMatches`, from
the entry `commands[i]` on, with the current `result` and `closeMatches`. -/
def closestMatchesLoop (command : CStr) : List CStr → MatchSet → Nat → MatchSet
  | [], result, _ => result
  | c :: rest, result, closeMatches =>
    let temp := hammingDistance command c
    let temp2 := levenshteinDistance command c
    if temp = 0 then result.set 0 (some command)
    else if temp = 1 then
      let result := result.set closeMatches (some c)
      if closeMatches + 1 ≥ 10 then result
      else closestMatchesLoop command rest result (closeMatches + 1)
    else if temp2 = 1 then
      let result := result.set closeMatches (some c)
      if closeMatches + 1 ≥ 10 then result
      else closestMatchesLoop command rest result (closeMatches + 1)
    else closestMatchesLoop command rest result closeMatches

/-- The function `closestMatches`.  `commands` is the NULL-terminated array of
command names (`none` for a `NULL` array, for which `NULL` is returned). -/
def closestMatches (commands : Option (List CStr)) (command : CStr) : Option MatchSet :=
  match commands with
  | none => none
  | some cmds => some (closestMatchesLoop command cmds (List.replicate 10 none) 1)

/-- The distance test of the matcher: one of the two metrics is exactly `1`. -/
def atDistanceOne (command c : CStr) : Prop :=
  hammingDistance command c = 1 ∨ levenshteinDistance command c = 1

instance (command c : CStr) : Decidable (atDistanceOne command c) := by
  unfold atDistanceOne; infer_instance

/-! ## Standard input and `checkIfRight` (shell.c 338-357) -/

/-- How a piece of code ends: it returns a value, it never returns, or it
reads outside an array or through a `NULL` pointer. -/
inductive Outcome (α : Type) where
  | returned (a : α)
  | hangs
  | fault
  deriving DecidableEq

/-- The characters `isspace` accepts (C locale). -/
def isSpace (c : Char) : Bool :=
  c = ' ' || c = '\t' || c = '\n' || c = '\x0b' || c = '\x0c' || c = '\r'

/-- The call `scanf("%9s", response)` on the unread part of standard input:
white space is skipped, then at most nine non-space characters are stored.
The first component is `none` when the input ends before any character is
stored (`scanf` returns `EOF`, not `1`); the second is what is left unread. -/
def scanf9s (stdin : List Char) : Option CStr × List Char :=
  let s := stdin.dropWhile isSpace
  if s = [] then (none, [])
  else
    let word := s.takeWhile (fun c => !isSpace c)
    (some (word.take 9), s.drop (word.take 9).length)

/-- The loop `while (getchar() != '\n') {}`: the input after the first
newline, or `none` when there is no newline left (`getchar` then returns `EOF`
for ever and the loop does not end). -/
def skipLine : List Char → Option (List Char)
  | [] => none
  | c :: cs => if c = '\n' then some cs else skipLine cs

/-- The text of the answer `y`. -/
def strY : CStr := ['y']

/-- The text of the answer `yes`. -/
def strYes : CStr := ['y', 'e', 's']

/-- The loop of `checkIfRight` from slot `i` on: the argument is the part
`commands[i], commands[i+1], ...` of the array, up to its end.  Returns the
prompts printed (the text between the quotes of `Did you mean "..."`) and the
outcome; reading `commands[i]` past the end of the array is a fault. -/
def checkIfRightFrom (rest : CStr) : List (Option CStr) → List Char → List CStr × Outcome (Option CStr)
  | [], _ => ([], Outcome.fault)
  | none :: _, _ => ([], Outcome.returned none)
  | some c :: more, stdin =>
    let asked := c ++ rest
    match scanf9s stdin with
    | (none, stdin) =>
      match skipLine stdin with
      | none => ([asked], Outcome.hangs)
      | some stdin =>
        let r := checkIfRightFrom rest more stdin
        (asked :: r.1, r.2)
    | (some response, stdin) =>
      if response = strY ∨ response = strYes then ([asked], Outcome.returned (some c))
      else
        let r := checkIfRightFrom rest more stdin
        (asked :: r.1, r.2)

/-- The function `checkIfRight`: the loop starts at slot `1`. -/
def checkIfRight (commands : MatchSet) (rest : CStr) (stdin : List Char) :
    List CStr × Outcome (Option CStr) :=
  checkIfRightFrom rest (commands.drop 1) stdin

/-! ## The child branch of `main` (shell.c 529-559) -/

/-- The first call `strtok(s, " ")`: `none` when `s` holds no token, otherwise
the token (leading spaces skipped, up to the next space or the end). -/
def strtokFirst (s : CStr) : Option CStr :=
  let t := s.dropWhile (fun c => c = ' ')
  if t = [] then none else some (t.takeWhile (fun c => c ≠ ' '))

/-- What the child does that can be seen from outside. -/
inductive Action where
  /-- The call `run(buffer)`. -/
  | run (buffer : CStr)
  /-- The message `Command not found: %s`. -/
  | notFound (what : CStr)
  /-- The prompt `Did you mean "%s%s"? [y/n]`. -/
  | ask (text : CStr)
  deriving DecidableEq

/-- How the child ends. -/
inductive Ending where
  /-- The call `execvp` succeeded: the child is the command now. -/
  | replaced
  /-- The call `exit(0)` at the end of the branch. -/
  | exited
  /-- The child waits for ever in `checkIfRight`. -/
  | hangs
  /-- A `NULL` pointer or a slot outside an array is read, or a pointer that
  was not allocated is freed. -/
  | fault
  deriving DecidableEq

/-- The text `snprintf(tempBuffer, MAX_LINE, "%s%s", right, restOfCommand)`
leaves in `tempBuffer`: at most `MAX_LINE - 1` characters.  A `NULL` pointer
for `%s` is rendered `(null)` (what glibc does; the C standard leaves it
undefined). -/
def snprintfTemp (right : Option CStr) (restOfCommand : CStr) : CStr :=
  ((match right with
    | some r => r
    | none => ['(', 'n', 'u', 'l', 'l', ')']) ++ restOfCommand).take (MAX_LINE - 1)

/-- The end of the branch: the loop that frees the non-`NULL` slots of
`matches`, then `exit(0)`.  Slot `0`, when set, points into the stack buffer
`inputCopy`, which `free` must not be given; the other slots point to the
strings allocated by `getCommands`. -/
def freeMatches (matchArr : MatchSet) : Ending :=
  if matchArr.getD 0 none ≠ none then Ending.fault else Ending.exited

/-- The child branch of `main` (`getpid() != parent_pid`), from the index
`commands`, the buffer `inputBuffer` left by `setup` and the unread standard
input.  `execs buffer` tells whether the `execvp` of `run(buffer)` succeeds, in
which case `run` does not return.  When `run(inputBuffer)` is called and
returns, its `strtok` has cut `inputBuffer` after the first token, and what
follows reads the cut buffer.  The branch is entered only after
`checkIntegratedCommands` has compared the first token of the same buffer, so
a buffer without a token is a fault before this point. -/
def mainChild (execs : CStr → Bool) (commands : Option (List CStr)) (inputBuffer : CStr)
    (stdin : List Char) : List Action × Ending :=
  match strtokFirst inputBuffer with
  | none => ([], Ending.fault)
  | some firstCommand =>
    -- inputCopy after strtok: cut at the end of the first token; matchArr is `matches`
    let inputCopy := inputBuffer.takeWhile (fun c => c = ' ') ++ firstCommand
    match closestMatches commands firstCommand with
    | none => ([], Ending.fault)
    | some matchArr =>
      let literal : List Action := if matchArr.getD 0 none ≠ none then [Action.run inputBuffer] else []
      if matchArr.getD 0 none ≠ none ∧ execs inputBuffer = true then (literal, Ending.replaced)
      else if matchArr.getD 1 none = none then
        (literal ++ [Action.notFound inputCopy], freeMatches matchArr)
      else
        -- inputBuffer as it reads now: whole, or cut by the strtok of the run that failed
        let bufferNow :=
          if matchArr.getD 0 none ≠ none then
            inputBuffer.takeWhile (fun c => c = ' ') ++ firstCommand
          else inputBuffer
        let restOfCommand := bufferNow.drop firstCommand.length
        let r := checkIfRight matchArr restOfCommand stdin
        let shown := literal ++ [Action.notFound bufferNow] ++ r.1.map Action.ask
        match r.2 with
        | Outcome.hangs => (shown, Ending.hangs)
        | Outcome.fault => (shown, Ending.fault)
        | Outcome.returned right =>
          let tempBuffer := snprintfTemp right restOfCommand
          (shown ++ [Action.run tempBuffer],
            if execs tempBuffer = true then Ending.replaced else freeMatches matchArr)

/-! ## Reference notions used to state the properties -/

/-- The standard input made of one line per answer. -/
def stdinOf (answers : List CStr) : List Char :=
  (answers.map (fun a => a ++ ['\n'])).flatten

/-- The entries of an array of pointers up to its first `NULL`. -/
def candidatesFrom : List (Option CStr) → List CStr
  | some c :: more => c :: candidatesFrom more
  | _ => []

/-- The candidates of a MatchSet: the entries from slot `1` up to the first
`NULL`, which are the ones `checkIfRight` offers. -/
def candidates (m : MatchSet) : List CStr := candidatesFrom (m.drop 1)

/-- The positions `i < n` at which the two strings differ. -/
def diffPositions (a b : CStr) (n : Nat) : List Nat :=
  (List.range n).filter (fun i => decide (a[i]? ≠ b[i]?))

/-- The recurrence the matrix of `levenshteinDistance` obeys, entry by entry:
`levCell s1 s2 i j` is the value the loops store in `dp[i][j]`
(`levTable_eq_levCell`). -/
def levCell (s1 s2 : CStr) : Nat → Nat → Int
  | 0, j => (j : Int)
  | i + 1, 0 => ((i + 1 : Nat) : Int)
  | i + 1, j + 1 =>
    if i + 1 > 1 ∧ j + 1 > 1 ∧ charAt s1 i = charAt s2 (j - 1) ∧ charAt s1 (i - 1) = charAt s2 j then
      levCell s1 s2 (i - 1) (j - 1) + 1
    else
      min3 (levCell s1 s2 i (j + 1) + 1) (levCell s1 s2 (i + 1) j + 1)
        (levCell s1 s2 i j + (if charAt s1 i = charAt s2 j then 0 else 1))
  termination_by i j => i + j

/-- The entries written so far when the loops are about to handle `(i, j+1)`:
row `0`, column `0`, the rows before `i` and row `i` up to column `j`, within
the `(len1+1) × (len2+1)` matrix, hold the values of the recurrence. -/
def Filled (s1 s2 : CStr) (dp : Table) (i j : Nat) : Prop :=
  ∀ a b, a ≤ s1.length → b ≤ s2.length → (a = 0 ∨ b = 0 ∨ a < i ∨ (a = i ∧ b ≤ j)) →
    dp.get a b = levCell s1 s2 a b

/-- The plain Levenshtein distance: the minimum number of unit-cost
single-character insertions, deletions and substitutions. -/
def plainLevenshtein (s1 s2 : CStr) : Nat :=
  levenshtein Levenshtein.defaultCost s1 s2

/-- One string is obtained from the other by one edit: `c` is `s` with one
character inserted, deleted or substituted, or with two adjacent characters
swapped. -/
inductive OneEdit : CStr → CStr → Prop where
  | insertion (pre post : CStr) (x : Char) : OneEdit (pre ++ post) (pre ++ x :: post)
  | deletion (pre post : CStr) (x : Char) : OneEdit (pre ++ x :: post) (pre ++ post)
  | substitution (pre post : CStr) (x y : Char) : OneEdit (pre ++ x :: post) (pre ++ y :: post)
  | swap (pre post : CStr) (x y : Char) : OneEdit (pre ++ x :: y :: post) (pre ++ y :: x :: post)

/-! ## Concrete inputs -/

/-- An index of ten one-letter commands, none of them `a`. -/
def tenNear : List CStr :=
  [['b'], ['c'], ['d'], ['e'], ['f'], ['g'], ['h'], ['i'], ['j'], ['k']]

/-- An index in which nine one-letter commands come before the command `a`. -/
def nineNearThenExact : List CStr :=
  [['b'], ['c'], ['d'], ['e'], ['f'], ['g'], ['h'], ['i'], ['j'], ['a']]

/-- A line of 79 characters: `l`, a space and 77 times `x`. -/
def longLine : CStr := 'l' :: ' ' :: List.replicate 77 'x'

/-! ## `setup` (shell.c 41-93) -/

/-- What `read(STDIN_FILENO, inputBuffer, MAX_LINE)` gives: an error (a
negative return value) or the bytes read, at most `MAX_LINE` of them and none
at the end of the input. -/
inductive ReadResult where
  | error
  | data (bytes : List Char)
  deriving DecidableEq

/-- The variables of `setup`.  The bytes of `inputBuffer` are the whole array
of `main`; `args[k] = &inputBuffer[p]` is `some p` and `NULL` is `none` (the
array of `main` has `MAX_LINE/+1`, that is `MAX_LINE`, slots); `start` is `-1`
or an index. -/
structure SetupState where
  inputBuffer : List Char
  args : List (Option Nat)
  ct : Nat
  start : Int
  background : Int
  deriving DecidableEq

/-- The statements `args[ct] = &inputBuffer[start]; ct++;` guarded by
`start != -1`. -/
def storeArg (st : SetupState) : SetupState :=
  if st.start ≠ -1 then
    { st with args := st.args.set st.ct (some st.start.toNat), ct := st.ct + 1 }
  else st

/-- The body of the loop of `setup` at index `i`: the `switch` on
`inputBuffer[i]`. -/
def setupBody (i : Nat) (st : SetupState) : SetupState :=
  let c := charAt st.inputBuffer i
  if c = ' ' ∨ c = '\t' then
    let st := storeArg st
    { st with inputBuffer := st.inputBuffer.set i ' ', start := -1 }
  else if c = '\n' then
    let st := storeArg st
    { st with inputBuffer := st.inputBuffer.set i '\x00', args := st.args.set st.ct none }
  else
    let st := if st.start = -1 then { st with start := (i : Int) } else st
    if c = '&' then { st with background := 1, inputBuffer := st.inputBuffer.set i '\x00' }
    else st

/-- How `setup` ends: with `exit(code)`, or by returning with its variables
in the given state. -/
inductive SetupResult where
  | exits (code : Int)
  | done (st : SetupState)
  deriving DecidableEq

/-- The function `setup`, from the result of `read`, the content of
`inputBuffer` and `args` before the call (what the previous line left there)
and the value of `*background`.  The bytes read replace the start of
`inputBuffer`. -/
def setup (input : ReadResult) (inputBuffer : List Char) (args : List (Option Nat))
    (background : Int) : SetupResult :=
  match input with
  | ReadResult.error => SetupResult.exits (-1)
  | ReadResult.data bytes =>
    if bytes.length = 0 then SetupResult.exits 0
    else
      let st := forLoop 0 bytes.length setupBody
        ⟨bytes ++ inputBuffer.drop bytes.length, args, 0, -1, background⟩
      SetupResult.done { st with args := st.args.set st.ct none }

/-- The C string at `&mem[p]`: the bytes from `p` up to the first NUL, or
`none` when there is no NUL up to the end of the array. -/
def cstrAt (mem : List Char) (p : Nat) : Option CStr :=
  if '\x00' ∈ mem.drop p then some ((mem.drop p).takeWhile (fun c => c ≠ '\x00')) else none

/-- The entries of an array of pointers before its first `NULL`. -/
def untilNull {α : Type} : List (Option α) → List α
  | some a :: more => a :: untilNull more
  | _ => []

/-- The C strings at the given places of `mem`, `none` when one of them is
not terminated. -/
def stringsAt (mem : List Char) : List Nat → Option (List CStr)
  | [] => some []
  | p :: ps =>
    match cstrAt mem p, stringsAt mem ps with
    | some s, some more => some (s :: more)
    | _, _ => none

/-- The tokens `setup` stores in `args`: the pointers before the terminating
`NULL`, each read as the C string that starts there. -/
def argStrings (st : SetupState) : Option (List CStr) :=
  stringsAt st.inputBuffer (untilNull st.args)

/-! ## `run` (shell.c 366-379) -/

/-- One call of `strtok` with the delimiter `" "`, on the part of the string
not yet consumed: `none` when no token is left, otherwise the token and what
follows the delimiter that ended it. -/
def strtokSpace (s : CStr) : Option (CStr × CStr) :=
  let t := s.dropWhile (fun c => c = ' ')
  if t = [] then none
  else some (t.takeWhile (fun c => c ≠ ' '), (t.dropWhile (fun c => c ≠ ' ')).drop 1)

/-- The loop `while (token != NULL)` of `run`: the tokens stored in `args`.
It runs at most `fuel` times; every turn consumes a character, so
`strlen + 1` turns are enough. -/
def runLoop : Nat → CStr → List CStr
  | 0, _ => []
  | fuel + 1, s =>
    match strtokSpace s with
    | none => []
    | some (token, rest) => token :: runLoop fuel rest

/-- The array `args` that `run` hands to `execvp`: the tokens followed by
`NULL`.  The array has `MAX_LINE / 2 + 1` slots, so more than `MAX_LINE / 2`
tokens are a fault. -/
def runArgs (tempBuffer : CStr) : Outcome (List (Option CStr)) :=
  let tokens := runLoop (tempBuffer.length + 1) tempBuffer
  if tokens.length > MAX_LINE / 2 then Outcome.fault
  else Outcome.returned (tokens.map some ++ [none])

/-! ## `saveHistory` and the `history` built-in (shell.c 19-20, 427-432, 481-494) -/

/-- The globals `history` (twenty rows of `MAX_LINE` bytes, each holding a C
string) and `historyCount`. -/
structure History where
  rows : List CStr
  historyCount : Nat
  deriving DecidableEq

/-- The globals when the shell starts: zeroed rows, `historyCount = 0`. -/
def emptyHistory : History := ⟨List.replicate 20 [], 0⟩

/-- The function `saveHistory`.  A string of `MAX_LINE` characters or more
does not fit the row `strcpy` writes it to: a fault. -/
def saveHistory (h : History) (inputBuffer : CStr) : Outcome History :=
  if inputBuffer.length > 0 ∧
      (h.historyCount = 0 ∨ h.rows.getD (h.historyCount - 1) [] ≠ inputBuffer) then
    if inputBuffer.length ≥ MAX_LINE then Outcome.fault
    else if h.historyCount < 20 then
      Outcome.returned ⟨h.rows.set h.historyCount inputBuffer, h.historyCount + 1⟩
    else
      let rows := forLoop 1 19 (fun i rows => rows.set (i - 1) (rows.getD i [])) h.rows
      Outcome.returned ⟨rows.set (20 - 1) inputBuffer, h.historyCount⟩
  else Outcome.returned h

/-- The calls `saveHistory(line)` for the lines of a list, in order. -/
def saveHistoryAll : History → List CStr → Outcome History
  | h, [] => Outcome.returned h
  | h, line :: more =>
    match saveHistory h line with
    | Outcome.returned h => saveHistoryAll h more
    | Outcome.hangs => Outcome.hangs
    | Outcome.fault => Outcome.fault

/-- What the `history` built-in prints: the pairs `i + 1`, `history[i]` for
`i < historyCount`. -/
def historyListing (h : History) : List (Nat × CStr) :=
  forLoop 0 h.historyCount (fun i out => out ++ [(i + 1, h.rows.getD i [])]) []

/-! ## `checkIntegratedCommands` (shell.c 389-472) -/

/-- What a built-in does, apart from its return value. -/
inductive Effect where
  /-- The call `implementCd(path)`. -/
  | chdir (path : CStr)
  /-- A text printed (colour codes left out). -/
  | print (text : CStr)
  /-- The call `system(command)`. -/
  | system (command : CStr)
  /-- One line `%d: %s` of the `history` built-in. -/
  | historyLine (number : Nat) (line : CStr)
  /-- One line `tepisan%s` in the colour of the given rank. -/
  | tepisan (colour : Nat) (who : CStr)
  deriving DecidableEq

/-- How `checkIntegratedCommands` ends: it returns `0` or `-1`, it calls
`exit(0)`, or it hands a `NULL` pointer to `strcmp` or `atoi`. -/
inductive BuiltinResult where
  | returned (code : Int) (effects : List Effect)
  | exits
  | fault
  deriving DecidableEq

/-- The function `atoi` on a C string: white space, an optional sign, then
decimal digits (values beyond `int` are not modelled). -/
def atoi (s : CStr) : Int :=
  let s := s.dropWhile isSpace
  let digits (r : CStr) : Int :=
    (r.takeWhile Char.isDigit).foldl (fun acc c => 10 * acc + ((c.toNat - '0'.toNat : Nat) : Int)) 0
  match s with
  | '-' :: r => - digits r
  | '+' :: r => digits r
  | r => digits r

/-- The function `checkIntegratedCommands` on the C string `command`, with
the globals `history`, `historyCount`. -/
def checkIntegratedCommands (h : History) (command : CStr) : BuiltinResult :=
  match strtokSpace command with
  | none => BuiltinResult.fault
  | some (firstCommand, saved) =>
    if firstCommand = ['c', 'd'] then
      match strtokSpace saved with
      | some (path, _) => BuiltinResult.returned 0 [Effect.chdir path]
      | none => BuiltinResult.returned 0
          [Effect.print ['c', 'd', ':', ' ', 'm', 'i', 's', 's', 'i', 'n', 'g', ' ',
            'a', 'r', 'g', 'u', 'm', 'e', 'n', 't', '\n']]
    else if firstCommand = ['e', 'x', 'i', 't'] then BuiltinResult.exits
    else if firstCommand = ['c', 'l', 'e', 'a', 'r'] then
      BuiltinResult.returned 0 [Effect.system ['c', 'l', 'e', 'a', 'r']]
    else if firstCommand = ['e', 'c', 'h', 'o'] then
      -- the next strtok call has an empty delimiter set: the token is all that is left
      if saved ≠ [] then
        BuiltinResult.returned 0 [Effect.print (saved.filter (fun c => c ≠ '"') ++ ['\n'])]
      else BuiltinResult.returned 0 [Effect.print ['\n']]
    else if firstCommand = ['h', 'i', 's', 't', 'o', 'r', 'y'] then
      BuiltinResult.returned 0 ((historyListing h).map (fun p => Effect.historyLine p.1 p.2))
    else if firstCommand = ['t', 'e', 'p', 'i', 's', 'a', 'n'] then
      match strtokSpace saved with
      | none => BuiltinResult.fault
      | some (who, saved) =>
        match strtokSpace saved with
        | none => BuiltinResult.fault
        | some (times, _) =>
          BuiltinResult.returned 0
            (forLoop 0 (atoi times).toNat (fun i out => out ++ [Effect.tepisan (i % 6) who]) [])
    else BuiltinResult.returned (-1) []

/-! ## `getCommands` (shell.c 173-212) -/

/-- The array `commands` (its slots written so far) and `capacity`. -/
structure Commands where
  commands : List CStr
  capacity : Nat
  deriving DecidableEq

/-- The assignment `commands[count] = strdup(name)`: slot `count` is one of
the slots written before, or the first one after them. -/
def writeSlot (l : List CStr) (count : Nat) (name : CStr) : List CStr :=
  if count < l.length then l.set count name else l ++ [name]

/-- The loop `while ((entry = readdir(dir)) != NULL)` over the entries of one
directory, from the given `count`. -/
def readdirLoop : List CStr → Nat → Commands → Commands
  | [], _, st => st
  | name :: more, count, st =>
    let capacity := if count ≥ st.capacity then st.capacity * 2 else st.capacity
    readdirLoop more (count + 1) ⟨writeSlot st.commands count name, capacity⟩

/-- The body of the loop `for (int i = 0; i < 10; i++)` of `getCommands`.
The array `paths` ends with `NULL`: from `i = ` the number of directories on,
`paths[i]` is `NULL`, which `opendir` dereferences, or outside the array.
`opendir path` is `none` when the directory cannot be opened, otherwise its
entry names in `readdir` order.  `count` starts at `0` for every directory. -/
def getCommandsBody (opendir : CStr → Option (List CStr)) (paths : List CStr) (i : Nat)
    (st : Outcome Commands) : Outcome Commands :=
  match st with
  | Outcome.returned st =>
    match paths[i]? with
    | none => Outcome.fault
    | some path =>
      match opendir path with
      | none => Outcome.returned st
      | some entries => Outcome.returned (readdirLoop entries 0 st)
  | other => other

/-- The function `getCommands`: the slots of the returned array that have
been written.  No `NULL` is stored after them. -/
def getCommands (opendir : CStr → Option (List CStr)) (paths : List CStr) : Outcome (List CStr) :=
  match forLoop 0 10 (getCommandsBody opendir paths) (Outcome.returned ⟨[], 200⟩) with
  | Outcome.returned st => Outcome.returned st.commands
  | Outcome.hangs => Outcome.hangs
  | Outcome.fault => Outcome.fault

/-! ## Reference notions and concrete inputs for the tokenizer, the history and the index -/

/-- A blank: the two argument separators of `setup`. -/
def isBlank (c : Char) : Bool := c = ' ' || c = '\t'

/-- The maximal runs of characters that are not separators. -/
def maximalRuns (sep : Char → Bool) (l : List Char) : List (List Char) :=
  (l.splitOnP sep).filter (fun r => decide (r ≠ []))

/-- A separator of `setup`: a blank or the newline. -/
def isSeparator (c : Char) : Bool := c = ' ' || c = '\t' || c = '\n'

/-- A line without the blanks and the newline at its two ends. -/
def trimmed (line : List Char) : List Char :=
  ((line.dropWhile isSeparator).reverse.dropWhile isSeparator).reverse

/-- The strings joined with single spaces. -/
def joinWithSpaces (l : List CStr) : CStr := List.intercalate [' '] l

/-- The byte `setup` leaves where it read `c`: a space for a separator, NUL
for a newline or `&`, the byte itself otherwise. -/
def setupByte (c : Char) : Char :=
  if c = ' ' ∨ c = '\t' then ' ' else if c = '\n' ∨ c = '&' then '\x00' else c

/-- A search path of ten directories, named `0` to `9`. -/
def tenDirs : List CStr :=
  [['0'], ['1'], ['2'], ['3'], ['4'], ['5'], ['6'], ['7'], ['8'], ['9']]

/-- A file system in which the directory `0` holds `ls`, the directory `1`
holds `cat`, and no other directory can be opened. -/
def twoOpenDirs (path : CStr) : Option (List CStr) :=
  if path = ['0'] then some [['.'], ['.', '.'], ['l', 's']]
  else if path = ['1'] then some [['.'], ['.', '.'], ['c', 'a', 't']]
  else none

/-- An index of nine one-letter commands, none of them `a`. -/
def nineNear : List CStr :=
  [['b'], ['c'], ['d'], ['e'], ['f'], ['g'], ['h'], ['i'], ['j']]

/-- The bytes of one read: `a` followed by 79 newlines. -/
def manyNewlines : List Char := 'a' :: List.replicate 79 '\n'

/-- The last `n` elements of a list (the whole list when it is shorter). -/
def lastN {α : Type} (n : Nat) (l : List α) : List α := l.drop (l.length - n)

/-- The history in which the lines `kept`, at most twenty, have been stored
from the start of the shell. -/
def historyOf (kept : List CStr) : History :=
  ⟨kept ++ List.replicate (20 - kept.length) [], kept.length⟩

/-- Twenty-one distinct lines, `A` to `U`. -/
def twentyOneLines : List CStr :=
  [['A'], ['B'], ['C'], ['D'], ['E'], ['F'], ['G'], ['H'], ['I'], ['J'], ['K'], ['L'], ['M'],
   ['N'], ['O'], ['P'], ['Q'], ['R'], ['S'], ['T'], ['U']]

/-! ## Properties of `hammingDistance` -/

theorem charAt_eq_getElem (s : CStr) (i : Nat) (h : i < s.length) : charAt s i = s[i] := by
  simp [charAt, List.getD_eq_getElem?_getD, List.getElem?_eq_getElem h]

theorem charAt_ne_iff (a b : CStr) (i : Nat) (ha : i < a.length) (hb : i < b.length) :
    charAt a i ≠ charAt b i ↔ a[i]? ≠ b[i]? := by
  rw [charAt_eq_getElem a i ha, charAt_eq_getElem b i hb,
    List.getElem?_eq_getElem ha, List.getElem?_eq_getElem hb]
  simp

theorem hammingLoop_eq (a b : CStr) (n : Nat) (ha : n ≤ a.length) (hb : n ≤ b.length) :
    forLoop 0 n (fun i (count : Int) => if charAt a i ≠ charAt b i then count + 1 else count) 0
      = ((diffPositions a b n).length : Int) := by
  induction n with
  | zero => simp [forLoop, diffPositions]
  | succ n ih =>
    have ih := ih (by omega) (by omega)
    have hiff := charAt_ne_iff a b n (by omega) (by omega)
    simp only [forLoop, Nat.zero_add, ih, diffPositions, List.range_succ, List.filter_append,
      List.length_append]
    by_cases hne : charAt a n ≠ charAt b n
    · have h2 := hiff.mp hne
      simp [hne, h2]
    · have hne2 : ¬ (a[n]? ≠ b[n]?) := fun h => hne (hiff.mpr h)
      simp only [ne_eq, not_not] at hne hne2
      simp [hne, hne2]

theorem hammingDistance_of_length_eq (a b : CStr) (h : a.length = b.length) :
    hammingDistance a b = ((diffPositions a b a.length).length : Int) := by
  unfold hammingDistance
  rw [if_neg (by simpa using h)]
  exact hammingLoop_eq a b a.length le_rfl (by omega)

theorem hammingDistance_of_length_ne (a b : CStr) (h : a.length ≠ b.length) :
    hammingDistance a b = -1 := by
  unfold hammingDistance
  rw [if_pos h]

theorem diffPositions_eq_nil_iff (a b : CStr) (h : a.length = b.length) :
    diffPositions a b a.length = [] ↔ a = b := by
  constructor
  · intro hnil
    apply List.ext_getElem? 
    intro i
    by_cases hi : i < a.length
    · by_contra hne
      have : i ∈ diffPositions a b a.length := by
        unfold diffPositions
        rw [List.mem_filter]
        exact ⟨List.mem_range.mpr hi, by simpa using hne⟩
      rw [hnil] at this
      exact absurd this (List.not_mem_nil _)
    · rw [List.getElem?_eq_none (by omega), List.getElem?_eq_none (by omega)]
  · rintro rfl
    simp [diffPositions]

theorem hammingDistance_eq_zero_iff (a b : CStr) : hammingDistance a b = 0 ↔ a = b := by
  by_cases h : a.length = b.length
  · rw [hammingDistance_of_length_eq a b h, ← diffPositions_eq_nil_iff a b h]
    simp
  · rw [hammingDistance_of_length_ne a b h]
    constructor
    · intro h0; omega
    · rintro rfl; exact absurd rfl h

theorem diffPositions_comm (a b : CStr) (n : Nat) : diffPositions a b n = diffPositions b a n := by
  unfold diffPositions
  congr 1
  funext i
  simp [ne_comm]

theorem hammingDistance_comm (a b : CStr) : hammingDistance a b = hammingDistance b a := by
  by_cases h : a.length = b.length
  · rw [hammingDistance_of_length_eq a b h, hammingDistance_of_length_eq b a h.symm,
      diffPositions_comm, h]
  · rw [hammingDistance_of_length_ne a b h, hammingDistance_of_length_ne b a (Ne.symm h)]

/-- C7. `hammingDistance a b` is `-1` exactly when the lengths differ, and
otherwise it is the number of positions `i` at which `a[i]` differs from
`b[i]`. -/
theorem hammingDistance_spec (a b : CStr) :
    (hammingDistance a b = -1 ↔ a.length ≠ b.length) ∧
    hammingDistance a b =
      if a.length = b.length then
        (((List.range a.length).filter (fun i => decide (a[i]? ≠ b[i]?))).length : Int)
      else -1 := by
  by_cases h : a.length = b.length
  · have := hammingDistance_of_length_eq a b h
    unfold diffPositions at this
    refine ⟨?_, by rw [if_pos h]; exact this⟩
    rw [this]
    constructor
    · intro h1; omega
    · intro h1; exact absurd h h1
  · refine ⟨?_, by rw [if_neg h]; exact hammingDistance_of_length_ne a b h⟩
    simp [hammingDistance_of_length_ne a b h, h]

/-- C8. `hammingDistance` is symmetric, and it is `0` exactly on identical
strings. -/
theorem hammingDistance_symm_and_zero (a b : CStr) :
    hammingDistance a b = hammingDistance b a ∧ (hammingDistance a b = 0 ↔ a = b) :=
  ⟨hammingDistance_comm a b, hammingDistance_eq_zero_iff a b⟩

/-! ## Properties of `levenshteinDistance` -/

theorem min3_eq_min (a b c : Int) : min3 a b c = min a (min b c) := by
  unfold min3
  split_ifs <;> omega

theorem min3_swap (a b c : Int) : min3 a b c = min3 b a c := by
  rw [min3_eq_min, min3_eq_min]; omega

theorem levCell_zero_left (s1 s2 : CStr) (j : Nat) : levCell s1 s2 0 j = (j : Int) := by
  rw [levCell]

theorem levCell_zero_right (s1 s2 : CStr) (i : Nat) : levCell s1 s2 i 0 = (i : Int) := by
  cases i with
  | zero => rw [levCell]
  | succ i => rw [levCell]

theorem levCell_pos (s1 s2 : CStr) (i j : Nat) (hi : 1 ≤ i) (hj : 1 ≤ j) :
    levCell s1 s2 i j =
      if i > 1 ∧ j > 1 ∧ charAt s1 (i - 1) = charAt s2 (j - 2) ∧ charAt s1 (i - 2) = charAt s2 (j - 1)
      then levCell s1 s2 (i - 2) (j - 2) + 1
      else min3 (levCell s1 s2 (i - 1) j + 1) (levCell s1 s2 i (j - 1) + 1)
        (levCell s1 s2 (i - 1) (j - 1) + (if charAt s1 (i - 1) = charAt s2 (j - 1) then 0 else 1)) := by
  obtain ⟨i, rfl⟩ : ∃ k, i = k + 1 := ⟨i - 1, by omega⟩
  obtain ⟨j, rfl⟩ : ∃ k, j = k + 1 := ⟨j - 1, by omega⟩
  rw [levCell]
  simp only [Nat.add_sub_cancel, Nat.reduceSubDiff]

theorem levCell_symm_aux (s1 s2 : CStr) (n : Nat) :
    ∀ i j, i + j = n → levCell s1 s2 i j = levCell s2 s1 j i := by
  induction n using Nat.strong_induction_on with
  | _ n ih =>
    intro i j h
    by_cases hi : i = 0
    · subst hi; rw [levCell_zero_left, levCell_zero_right]
    by_cases hj : j = 0
    · subst hj; rw [levCell_zero_left, levCell_zero_right]
    rw [levCell_pos s1 s2 i j (by omega) (by omega), levCell_pos s2 s1 j i (by omega) (by omega)]
    have e1 := ih (i - 2 + (j - 2)) (by omega) (i - 2) (j - 2) rfl
    have e2 := ih (i - 1 + j) (by omega) (i - 1) j rfl
    have e3 := ih (i + (j - 1)) (by omega) i (j - 1) rfl
    have e4 := ih (i - 1 + (j - 1)) (by omega) (i - 1) (j - 1) rfl
    rw [e1, e2, e3, e4, min3_swap]
    have hc : (i > 1 ∧ j > 1 ∧ charAt s1 (i - 1) = charAt s2 (j - 2) ∧ charAt s1 (i - 2) = charAt s2 (j - 1))
        ↔ (j > 1 ∧ i > 1 ∧ charAt s2 (j - 1) = charAt s1 (i - 2) ∧ charAt s2 (j - 2) = charAt s1 (i - 1)) := by
      constructor
      · rintro ⟨a, b, c, d⟩; exact ⟨b, a, d.symm, c.symm⟩
      · rintro ⟨a, b, c, d⟩; exact ⟨b, a, d.symm, c.symm⟩
    have hk : (charAt s1 (i - 1) = charAt s2 (j - 1)) ↔ (charAt s2 (j - 1) = charAt s1 (i - 1)) := eq_comm
    simp only [hc, hk]

theorem levCell_symm (s1 s2 : CStr) (i j : Nat) : levCell s1 s2 i j = levCell s2 s1 j i :=
  levCell_symm_aux s1 s2 (i + j) i j rfl

theorem get_assign (dp : Table) (i j : Nat) (v : Int) (a b : Nat) :
    (dp.assign i j v).get a b = if a = i ∧ b = j then v else dp.get a b := rfl

theorem get_levStep (s1 s2 : CStr) (i j : Nat) (dp : Table) (a b : Nat) :
    (levStep s1 s2 i j dp).get a b =
      if a = i ∧ b = j then
        (if i > 1 ∧ j > 1 ∧ charAt s1 (i - 1) = charAt s2 (j - 2) ∧ charAt s1 (i - 2) = charAt s2 (j - 1)
         then dp.get (i - 2) (j - 2) + 1
         else min3 (dp.get (i - 1) j + 1) (dp.get i (j - 1) + 1)
          (dp.get (i - 1) (j - 1) + (if charAt s1 (i - 1) = charAt s2 (j - 1) then 0 else 1)))
      else dp.get a b := by
  unfold levStep
  by_cases hc : i > 1 ∧ j > 1 ∧ charAt s1 (i - 1) = charAt s2 (j - 2) ∧ charAt s1 (i - 2) = charAt s2 (j - 1)
  · have h2 : ¬ (i - 2 = i ∧ j - 2 = j) := by omega
    simp only [if_pos hc, get_assign, if_neg h2]
    by_cases hab : a = i ∧ b = j
    · simp only [if_pos hab]
    · simp only [if_neg hab]
  · simp only [if_neg hc, get_assign]

theorem get_initRows (n : Nat) (dp : Table) (a b : Nat) :
    (forLoop 0 n (fun i dp => dp.assign i 0 (i : Int)) dp).get a b =
      if a < n ∧ b = 0 then (a : Int) else dp.get a b := by
  induction n with
  | zero => simp [forLoop]
  | succ n ih =>
    simp only [forLoop, get_assign, ih, Nat.zero_add]
    by_cases h1 : a = n ∧ b = 0
    · obtain ⟨rfl, rfl⟩ := h1; simp
    · by_cases h2 : a < n ∧ b = 0
      · have h3 : a < n + 1 ∧ b = 0 := ⟨by omega, h2.2⟩
        rw [if_neg h1, if_pos h2, if_pos h3]
      · have h3 : ¬ (a < n + 1 ∧ b = 0) := by omega
        rw [if_neg h1, if_neg h2, if_neg h3]

theorem get_initCols (n : Nat) (dp : Table) (a b : Nat) :
    (forLoop 0 n (fun j dp => dp.assign 0 j (j : Int)) dp).get a b =
      if a = 0 ∧ b < n then (b : Int) else dp.get a b := by
  induction n with
  | zero => simp [forLoop]
  | succ n ih =>
    simp only [forLoop, get_assign, ih, Nat.zero_add]
    by_cases h1 : a = 0 ∧ b = n
    · obtain ⟨rfl, rfl⟩ := h1; simp
    · by_cases h2 : a = 0 ∧ b < n
      · have h3 : a = 0 ∧ b < n + 1 := ⟨h2.1, by omega⟩
        rw [if_neg h1, if_pos h2, if_pos h3]
      · have h3 : ¬ (a = 0 ∧ b < n + 1) := by omega
        rw [if_neg h1, if_neg h2, if_neg h3]

theorem filled_levInit (s1 s2 : CStr) (dp0 : Table) :
    Filled s1 s2 (levInit s1.length s2.length dp0) 1 0 := by
  intro a b ha hb h
  unfold levInit
  simp only [get_initCols, get_initRows]
  by_cases h0 : a = 0
  · subst h0
    rw [if_pos ⟨rfl, by omega⟩, levCell_zero_left]
  · have hb0 : b = 0 := by omega
    subst hb0
    rw [if_neg (by omega), if_pos ⟨by omega, rfl⟩, levCell_zero_right]

theorem filled_levStep (s1 s2 : CStr) (dp : Table) (i j : Nat) (hi : 1 ≤ i)
    (hi1 : i ≤ s1.length) (hj1 : j + 1 ≤ s2.length) (h : Filled s1 s2 dp i j) :
    Filled s1 s2 (levStep s1 s2 i (j + 1) dp) i (j + 1) := by
  intro a b ha hb hab
  rw [get_levStep]
  by_cases hcell : a = i ∧ b = j + 1
  · obtain ⟨rfl, rfl⟩ := hcell
    rw [if_pos ⟨rfl, rfl⟩, levCell_pos s1 s2 a (j + 1) hi (by omega)]
    rw [h (a - 2) (j + 1 - 2) (by omega) (by omega) (by omega),
      h (a - 1) (j + 1) (by omega) (by omega) (by omega),
      h a (j + 1 - 1) (by omega) (by omega) (by omega),
      h (a - 1) (j + 1 - 1) (by omega) (by omega) (by omega)]
  · rw [if_neg hcell]
    exact h a b ha hb (by omega)

theorem filled_inner (s1 s2 : CStr) (dp : Table) (i n : Nat) (hi : 1 ≤ i)
    (hi1 : i ≤ s1.length) (hn : n ≤ s2.length) (h : Filled s1 s2 dp i 0) :
    Filled s1 s2 (forLoop 1 n (fun j dp => levStep s1 s2 i j dp) dp) i n := by
  induction n with
  | zero => exact h
  | succ n ih =>
    have := filled_levStep s1 s2 _ i n hi hi1 hn (ih (by omega))
    simpa [forLoop, Nat.add_comm] using this

theorem filled_next_row (s1 s2 : CStr) (dp : Table) (i : Nat)
    (h : Filled s1 s2 dp i s2.length) : Filled s1 s2 dp (i + 1) 0 := by
  intro a b ha hb hab
  exact h a b ha hb (by omega)

theorem filled_outer (s1 s2 : CStr) (dp : Table) (m : Nat) (hm : m ≤ s1.length)
    (h : Filled s1 s2 dp 1 0) :
    Filled s1 s2
      (forLoop 1 m (fun i dp => forLoop 1 s2.length (fun j dp => levStep s1 s2 i j dp) dp) dp)
      (m + 1) 0 := by
  induction m with
  | zero => exact h
  | succ m ih =>
    have h1 := ih (by omega)
    rw [Nat.add_comm m 1] at h1
    have h2 := filled_inner s1 s2 _ (1 + m) s2.length (by omega) (by omega) le_rfl h1
    have h3 := filled_next_row s1 s2 _ (1 + m) h2
    rw [Nat.add_comm 1 m] at h3
    simpa [forLoop, Nat.add_comm] using h3

theorem levTable_eq_levCell (dp0 : Table) (s1 s2 : CStr) (a b : Nat) (ha : a ≤ s1.length)
    (hb : b ≤ s2.length) : (levTable dp0 s1 s2).get a b = levCell s1 s2 a b := by
  have h := filled_outer s1 s2 _ s1.length le_rfl (filled_levInit s1 s2 dp0)
  exact h a b ha hb (by omega)

theorem levenshteinDistance_eq_levCell (s1 s2 : CStr) :
    levenshteinDistance s1 s2 = levCell s1 s2 s1.length s2.length :=
  levTable_eq_levCell _ s1 s2 _ _ le_rfl le_rfl

/-- C6. `levenshteinDistance` is symmetric. -/
theorem levenshteinDistance_symm (s1 s2 : CStr) :
    levenshteinDistance s1 s2 = levenshteinDistance s2 s1 := by
  rw [levenshteinDistance_eq_levCell, levenshteinDistance_eq_levCell, levCell_symm]

theorem levCell_nonneg_aux (s1 s2 : CStr) (n : Nat) :
    ∀ i j, i + j = n → 0 ≤ levCell s1 s2 i j := by
  induction n using Nat.strong_induction_on with
  | _ n ih =>
    intro i j h
    by_cases hi : i = 0
    · subst hi; rw [levCell_zero_left]; omega
    by_cases hj : j = 0
    · subst hj; rw [levCell_zero_right]; omega
    rw [levCell_pos s1 s2 i j (by omega) (by omega)]
    have e1 := ih (i - 2 + (j - 2)) (by omega) (i - 2) (j - 2) rfl
    have e2 := ih (i - 1 + j) (by omega) (i - 1) j rfl
    have e3 := ih (i + (j - 1)) (by omega) i (j - 1) rfl
    have e4 := ih (i - 1 + (j - 1)) (by omega) (i - 1) (j - 1) rfl
    rw [min3_eq_min]
    split_ifs <;> omega

theorem levCell_nonneg (s1 s2 : CStr) (i j : Nat) : 0 ≤ levCell s1 s2 i j :=
  levCell_nonneg_aux s1 s2 (i + j) i j rfl

theorem levCell_eq_zero_aux (s1 s2 : CStr) (n : Nat) :
    ∀ i j, i + j = n → levCell s1 s2 i j = 0 →
      i = j ∧ ∀ k, k < i → charAt s1 k = charAt s2 k := by
  induction n using Nat.strong_induction_on with
  | _ n ih =>
    intro i j h hz
    by_cases hi : i = 0
    · subst hi
      rw [levCell_zero_left] at hz
      exact ⟨by omega, fun k hk => by omega⟩
    by_cases hj : j = 0
    · subst hj
      rw [levCell_zero_right] at hz
      omega
    rw [levCell_pos s1 s2 i j (by omega) (by omega), min3_eq_min] at hz
    have e1 := levCell_nonneg s1 s2 (i - 2) (j - 2)
    have e2 := levCell_nonneg s1 s2 (i - 1) j
    have e3 := levCell_nonneg s1 s2 i (j - 1)
    have e4 := levCell_nonneg s1 s2 (i - 1) (j - 1)
    by_cases hc : i > 1 ∧ j > 1 ∧ charAt s1 (i - 1) = charAt s2 (j - 2) ∧
        charAt s1 (i - 2) = charAt s2 (j - 1)
    · rw [if_pos hc] at hz; omega
    · rw [if_neg hc] at hz
      by_cases hch : charAt s1 (i - 1) = charAt s2 (j - 1)
      · rw [if_pos hch] at hz
        have hz4 : levCell s1 s2 (i - 1) (j - 1) = 0 := by omega
        obtain ⟨hij, hpre⟩ := ih (i - 1 + (j - 1)) (by omega) (i - 1) (j - 1) rfl hz4
        refine ⟨by omega, fun k hk => ?_⟩
        by_cases hk1 : k < i - 1
        · exact hpre k hk1
        · have hk2 : k = i - 1 := by omega
          rw [hk2]
          rwa [← hij] at hch
      · rw [if_neg hch] at hz; omega

/-- The half of C4 that holds: `levenshteinDistance` is `0` only on identical
strings. -/
theorem eq_of_levenshteinDistance_eq_zero (s1 s2 : CStr) (h : levenshteinDistance s1 s2 = 0) :
    s1 = s2 := by
  rw [levenshteinDistance_eq_levCell] at h
  obtain ⟨hlen, hpre⟩ := levCell_eq_zero_aux s1 s2 _ _ _ rfl h
  apply List.ext_getElem hlen
  intro k hk1 hk2
  have := hpre k hk1
  rwa [charAt_eq_getElem s1 k hk1, charAt_eq_getElem s2 k hk2] at this

/-! ## Properties of `closestMatches` -/

theorem closestMatchesLoop_nil (command : CStr) (result : MatchSet) (cm : Nat) :
    closestMatchesLoop command [] result cm = result := rfl

theorem closestMatchesLoop_cons (command c : CStr) (rest : List CStr) (result : MatchSet)
    (cm : Nat) :
    closestMatchesLoop command (c :: rest) result cm =
      if hammingDistance command c = 0 then result.set 0 (some command)
      else if atDistanceOne command c then
        (if cm + 1 ≥ 10 then result.set cm (some c)
         else closestMatchesLoop command rest (result.set cm (some c)) (cm + 1))
      else closestMatchesLoop command rest result cm := by
  rw [closestMatchesLoop]
  unfold atDistanceOne
  by_cases h0 : hammingDistance command c = 0
  · simp only [if_pos h0]
  · simp only [if_neg h0]
    by_cases h1 : hammingDistance command c = 1
    · rw [if_pos h1, if_pos (Or.inl h1)]
    · rw [if_neg h1]
      by_cases h2 : levenshteinDistance command c = 1
      · rw [if_pos h2, if_pos (Or.inr h2)]
      · rw [if_neg h2, if_neg (by rintro (h | h); exacts [h1 h, h2 h])]

theorem closestMatchesLoop_exact (command : CStr) (rest : List CStr) (result : MatchSet)
    (cm : Nat) :
    closestMatchesLoop command (command :: rest) result cm = result.set 0 (some command) := by
  rw [closestMatchesLoop_cons, if_pos ((hammingDistance_eq_zero_iff _ _).mpr rfl)]

theorem closestMatchesLoop_other (command c : CStr) (rest : List CStr) (result : MatchSet)
    (cm : Nat) (hne : c ≠ command) :
    closestMatchesLoop command (c :: rest) result cm =
      if atDistanceOne command c then
        (if cm + 1 ≥ 10 then result.set cm (some c)
         else closestMatchesLoop command rest (result.set cm (some c)) (cm + 1))
      else closestMatchesLoop command rest result cm := by
  rw [closestMatchesLoop_cons, if_neg]
  intro h
  exact hne ((hammingDistance_eq_zero_iff _ _).mp h).symm

theorem closestMatchesLoop_length (command : CStr) (cmds : List CStr) :
    ∀ (result : MatchSet) (cm : Nat),
      (closestMatchesLoop command cmds result cm).length = result.length := by
  induction cmds with
  | nil => intro result cm; rfl
  | cons c rest ih =>
    intro result cm
    rw [closestMatchesLoop_cons]
    split_ifs <;> simp [ih]

/-- The slots from `1` up to `closeMatches - 1` are not written again. -/
theorem closestMatchesLoop_keep (command : CStr) (cmds : List CStr) :
    ∀ (result : MatchSet) (cm k : Nat), 1 ≤ k → k < cm →
      (closestMatchesLoop command cmds result cm)[k]? = result[k]? := by
  induction cmds with
  | nil => intro result cm k _ _; rfl
  | cons c rest ih =>
    intro result cm k h1 h2
    rw [closestMatchesLoop_cons]
    split_ifs
    · rw [List.getElem?_set_ne (by omega)]
    · rw [List.getElem?_set_ne (by omega)]
    · rw [ih _ _ k h1 (by omega), List.getElem?_set_ne (by omega)]
    · exact ih _ _ k h1 h2

/-- Slot `0` is written only when the typed command itself is met. -/
theorem closestMatchesLoop_slot0_absent (command : CStr) (cmds : List CStr) (habs : command ∉ cmds) :
    ∀ (result : MatchSet) (cm : Nat), 1 ≤ cm →
      (closestMatchesLoop command cmds result cm)[0]? = result[0]? := by
  induction cmds with
  | nil => intro result cm _; rfl
  | cons c rest ih =>
    intro result cm h1
    have hc : c ≠ command := fun h => habs (by simp [h])
    have hrest : command ∉ rest := fun h => habs (by simp [h])
    rw [closestMatchesLoop_other _ _ _ _ _ hc]
    split_ifs
    · rw [List.getElem?_set_ne (by omega)]
    · rw [ih hrest _ _ (by omega), List.getElem?_set_ne (by omega)]
    · exact ih hrest _ _ h1

/-- When fewer than nine entries at distance one come before the first
occurrence of the typed command, the loop reaches it and fills slot `0`. -/
theorem closestMatchesLoop_slot0_present (command : CStr) (post : List CStr) (pre : List CStr) :
    ∀ (result : MatchSet) (cm : Nat), 0 < result.length → 1 ≤ cm → command ∉ pre →
      (pre.filter (fun c => decide (atDistanceOne command c))).length + cm ≤ 9 →
      (closestMatchesLoop command (pre ++ command :: post) result cm)[0]? = some (some command) := by
  induction pre with
  | nil =>
    intro result cm hlen _ _ _
    rw [List.nil_append, closestMatchesLoop_exact, List.getElem?_set_self hlen]
  | cons c rest ih =>
    intro result cm hlen h1 habs hcount
    have hc : c ≠ command := fun h => habs (by simp [h])
    have hrest : command ∉ rest := fun h => habs (by simp [h])
    rw [List.cons_append, closestMatchesLoop_other _ _ _ _ _ hc]
    by_cases hd : atDistanceOne command c
    · rw [List.filter_cons_of_pos (by simpa using hd), List.length_cons] at hcount
      rw [if_pos hd, if_neg (by omega)]
      exact ih _ _ (by simpa using hlen) (by omega) hrest (by omega)
    · rw [List.filter_cons_of_neg (by simpa using hd)] at hcount
      rw [if_neg hd]
      exact ih _ _ hlen h1 hrest hcount

theorem mem_candidatesFrom (c : CStr) (l : List (Option CStr)) :
    ∀ (k : Nat), l[k]? = some (some c) → (∀ k', k' < k → ∃ x, l[k']? = some (some x)) →
      c ∈ candidatesFrom l := by
  induction l with
  | nil => intro k h _; simp at h
  | cons a more ih =>
    intro k h hbefore
    cases k with
    | zero =>
      simp only [List.getElem?_cons_zero, Option.some.injEq] at h
      subst h
      simp [candidatesFrom]
    | succ k =>
      obtain ⟨x, hx⟩ := hbefore 0 (by omega)
      simp only [List.getElem?_cons_zero, Option.some.injEq] at hx
      subst hx
      simp only [candidatesFrom, List.mem_cons]
      right
      apply ih k (by simpa using h)
      intro k' hk'
      have := hbefore (k' + 1) (by omega)
      simpa using this

theorem mem_candidates (c : CStr) (m : MatchSet) (k : Nat) (hk : 1 ≤ k)
    (h : m[k]? = some (some c)) (hbefore : ∀ k', 1 ≤ k' → k' < k → ∃ x, m[k']? = some (some x)) :
    c ∈ candidates m := by
  unfold candidates
  apply mem_candidatesFrom c _ (k - 1)
  · rw [List.getElem?_drop]
    rw [show 1 + (k - 1) = k by omega]
    exact h
  · intro k' hk'
    rw [List.getElem?_drop]
    exact hbefore (1 + k') (by omega) (by omega)

/-- A command at distance one that is met before the typed command itself and
before the nine slots are used up is stored, and stays, among the candidates. -/
theorem closestMatchesLoop_complete (command c : CStr) (post : List CStr) (pre : List CStr)
    (hc : c ≠ command) (hd : atDistanceOne command c) :
    ∀ (result : MatchSet) (cm : Nat), result.length = 10 → 1 ≤ cm →
      (∀ k, 1 ≤ k → k < cm → ∃ x, result[k]? = some (some x)) → command ∉ pre →
      (pre.filter (fun c => decide (atDistanceOne command c))).length + cm ≤ 9 →
      c ∈ candidates (closestMatchesLoop command (pre ++ c :: post) result cm) := by
  induction pre with
  | nil =>
    intro result cm hlen h1 hfull _ hcount
    simp only [List.filter_nil, List.length_nil, Nat.zero_add] at hcount
    rw [List.nil_append, closestMatchesLoop_other _ _ _ _ _ hc, if_pos hd]
    have hset : (result.set cm (some c))[cm]? = some (some c) :=
      List.getElem?_set_self (by omega)
    have hold : ∀ k', 1 ≤ k' → k' < cm → ∃ x, (result.set cm (some c))[k']? = some (some x) := by
      intro k' hk1 hk2
      rw [List.getElem?_set_ne (by omega)]
      exact hfull k' hk1 hk2
    split_ifs
    · exact mem_candidates c _ cm h1 hset hold
    · apply mem_candidates c _ cm h1
      · rw [closestMatchesLoop_keep _ _ _ _ cm h1 (by omega)]; exact hset
      · intro k' hk1 hk2
        rw [closestMatchesLoop_keep _ _ _ _ k' hk1 (by omega)]
        exact hold k' hk1 hk2
  | cons p rest ih =>
    intro result cm hlen h1 hfull habs hcount
    have hp : p ≠ command := fun h => habs (by simp [h])
    have hrest : command ∉ rest := fun h => habs (by simp [h])
    rw [List.cons_append, closestMatchesLoop_other _ _ _ _ _ hp]
    by_cases hdp : atDistanceOne command p
    · rw [List.filter_cons_of_pos (by simpa using hdp), List.length_cons] at hcount
      rw [if_pos hdp, if_neg (by omega)]
      apply ih _ _ (by simpa using hlen) (by omega) _ hrest (by omega)
      intro k hk1 hk2
      by_cases hk : k = cm
      · subst hk
        exact ⟨p, List.getElem?_set_self (by omega)⟩
      · rw [List.getElem?_set_ne (by omega)]
        exact hfull k hk1 (by omega)
    · rw [List.filter_cons_of_neg (by simpa using hdp)] at hcount
      rw [if_neg hdp]
      exact ih _ _ hlen h1 hfull hrest hcount

/-- C1 (as amended). Every command of the index that passes the distance
test, that is not the token itself and that comes before any occurrence of the
token and after fewer than nine other commands passing the test, is among the
candidates of the MatchSet returned by `closestMatches`. -/
theorem closestMatches_complete (pre post : List CStr) (token c : CStr)
    (hd : atDistanceOne token c) (hne : c ≠ token) (habs : token ∉ pre)
    (hcap : (pre.filter (fun e => decide (atDistanceOne token e))).length < 9) :
    ∃ m, closestMatches (some (pre ++ c :: post)) token = some m ∧ c ∈ candidates m := by
  refine ⟨_, rfl, ?_⟩
  apply closestMatchesLoop_complete token c post pre hne hd _ 1 (by simp) le_rfl _ habs (by omega)
  intro k hk1 hk2
  omega

theorem closestMatches_complete_witness :
    atDistanceOne ['s', 'l'] ['l', 's'] ∧
    ∃ m, closestMatches (some ([['l', 't']] ++ ['l', 's'] :: [['s', 'h']])) ['s', 'l'] = some m ∧
      ['l', 's'] ∈ candidates m :=
  ⟨by decide,
   closestMatches_complete [['l', 't']] [['s', 'h']] ['s', 'l'] ['l', 's'] (by decide) (by decide)
    (by decide) (by decide)⟩

/-- C1 fails as stated: with ten commands at Hamming distance one from the
token `a` in the index, the tenth (`k`) is in no slot of the MatchSet. -/
theorem closestMatches_drops_tenth :
    ['k'] ∈ tenNear ∧ hammingDistance ['a'] ['k'] = 1 ∧
    closestMatches (some tenNear) ['a'] =
      some [none, some ['b'], some ['c'], some ['d'], some ['e'], some ['f'], some ['g'],
        some ['h'], some ['i'], some ['j']] ∧
    ¬ (∃ m, closestMatches (some tenNear) ['a'] = some m ∧ ['k'] ∈ candidates m) := by
  refine ⟨by decide, by decide, by decide, ?_⟩
  rintro ⟨m, hm, hk⟩
  have h : closestMatches (some tenNear) ['a'] =
      some [none, some ['b'], some ['c'], some ['d'], some ['e'], some ['f'], some ['g'],
        some ['h'], some ['i'], some ['j']] := by decide
  rw [h] at hm
  cases hm
  revert hk
  decide

/-! ## The child branch of `main` -/

theorem mainChild_literal (execs : CStr → Bool) (cmds : List CStr) (inputBuffer token : CStr)
    (stdin : List Char) (htok : strtokFirst inputBuffer = some token)
    (h0 : (closestMatchesLoop token cmds (List.replicate 10 none) 1)[0]? = some (some token))
    (hexec : execs inputBuffer = true) :
    mainChild execs (some cmds) inputBuffer stdin = ([Action.run inputBuffer], Ending.replaced) := by
  have hg : (closestMatchesLoop token cmds (List.replicate 10 none) 1).getD 0 none = some token := by
    rw [List.getD_eq_getElem?_getD, h0]; rfl
  simp only [mainChild, htok, closestMatches, hg]
  simp [hexec]

theorem mainChild_literal_head (execs : CStr → Bool) (cmds : List CStr) (inputBuffer token : CStr)
    (stdin : List Char) (htok : strtokFirst inputBuffer = some token)
    (h0 : (closestMatchesLoop token cmds (List.replicate 10 none) 1)[0]? = some (some token)) :
    (mainChild execs (some cmds) inputBuffer stdin).1.head? = some (Action.run inputBuffer) := by
  have hg : (closestMatchesLoop token cmds (List.replicate 10 none) 1).getD 0 none = some token := by
    rw [List.getD_eq_getElem?_getD, h0]; rfl
  simp only [mainChild, htok, closestMatches, hg, ne_eq, reduceCtorEq, not_false_eq_true,
    if_true, true_and]
  by_cases hexec : execs inputBuffer = true
  · rw [if_pos hexec]; rfl
  · rw [if_neg hexec]
    by_cases h1 : (closestMatchesLoop token cmds (List.replicate 10 none) 1).getD 1 none = none
    · rw [if_pos h1]; rfl
    · rw [if_neg h1]
      split <;> rfl

/-- What holds of C3: when the index contains the token and fewer than nine
commands passing the distance test come before its first occurrence, slot `0`
of the MatchSet is the token, the first thing the child does is to call `run`
on the literal command line, and when that `execvp` succeeds nothing is
reported and nothing is asked. -/
theorem literal_command_runs (execs : CStr → Bool) (pre post : List CStr)
    (inputBuffer token : CStr) (stdin : List Char)
    (htok : strtokFirst inputBuffer = some token) (habs : token ∉ pre)
    (hcap : (pre.filter (fun e => decide (atDistanceOne token e))).length < 9) :
    (∃ m, closestMatches (some (pre ++ token :: post)) token = some m ∧
      m[0]? = some (some token)) ∧
    (mainChild execs (some (pre ++ token :: post)) inputBuffer stdin).1.head?
      = some (Action.run inputBuffer) ∧
    (execs inputBuffer = true →
      mainChild execs (some (pre ++ token :: post)) inputBuffer stdin
        = ([Action.run inputBuffer], Ending.replaced)) := by
  have h0 := closestMatchesLoop_slot0_present token post pre (List.replicate 10 none) 1
    (by simp) le_rfl habs (by omega)
  exact ⟨⟨_, rfl, h0⟩, mainChild_literal_head execs _ _ _ stdin htok h0,
    fun hexec => mainChild_literal execs _ _ _ stdin htok h0 hexec⟩

theorem literal_command_runs_witness :
    strtokFirst ['l', 's', ' ', '-', 'l'] = some ['l', 's'] ∧
    mainChild (fun _ => true) (some ([['l', 't']] ++ ['l', 's'] :: [['s', 'h']]))
      ['l', 's', ' ', '-', 'l'] [] = ([Action.run ['l', 's', ' ', '-', 'l']], Ending.replaced) :=
  ⟨by decide,
   (literal_command_runs (fun _ => true) [['l', 't']] [['s', 'h']] ['l', 's', ' ', '-', 'l']
      ['l', 's'] [] (by decide) (by decide) (by decide)).2.2 rfl⟩

/-- C3. The index `b, c, ..., j, a` contains the token `a`, but the nine
commands before it fill the MatchSet and the loop of `closestMatches` breaks
before it reaches `a`: slot `0` stays `NULL`, and the child reports
`Command not found`, asks about `b` and runs `b` instead of running `a`. -/
theorem literal_command_not_reached :
    ['a'] ∈ nineNearThenExact ∧
    closestMatches (some nineNearThenExact) ['a'] =
      some [none, some ['b'], some ['c'], some ['d'], some ['e'], some ['f'], some ['g'],
        some ['h'], some ['i'], some ['j']] ∧
    mainChild (fun _ => true) (some nineNearThenExact) ['a'] ['y', '\n'] =
      ([Action.notFound ['a'], Action.ask ['b'], Action.run ['b']], Ending.replaced) := by
  refine ⟨by decide, by decide, by decide⟩

/-- A literal run that fails: `ls` is in the index after `lt`, `execvp`
fails, and `run` returns with `inputBuffer` cut after `ls` by its `strtok`; the report, the
prompt and the corrected line are made from the cut buffer, and the branch
ends by freeing slot `0`, a pointer into `inputCopy`. -/
theorem failed_literal_run_cuts_buffer :
    mainChild (fun _ => false) (some [['l', 't'], ['l', 's']]) ['l', 's', ' ', '-', 'l']
        ['y', '\n'] =
      ([Action.run ['l', 's', ' ', '-', 'l'], Action.notFound ['l', 's'], Action.ask ['l', 't'],
        Action.run ['l', 't']], Ending.fault) := by
  decide

/-! ## Properties of `checkIfRight` -/

theorem strtokFirst_append (token rest : CStr) (hne : token ≠ []) (hsp : ' ' ∉ token)
    (hrest : rest = [] ∨ ∃ r, rest = ' ' :: r) : strtokFirst (token ++ rest) = some token := by
  obtain ⟨x, t, rfl⟩ := List.exists_cons_of_ne_nil hne
  have hx : x ≠ ' ' := fun h => hsp (by simp [h])
  have hdrop : List.dropWhile (fun c => decide (c = ' ')) ((x :: t) ++ rest) = (x :: t) ++ rest := by
    rw [List.cons_append, List.dropWhile_cons_of_neg (by simpa using hx)]
  have hrest2 : List.takeWhile (fun c => decide (c ≠ ' ')) rest = [] := by
    rcases hrest with rfl | ⟨r, rfl⟩
    · rfl
    · rw [List.takeWhile_cons_of_neg (by simp)]
  have htake : List.takeWhile (fun c => decide (c ≠ ' ')) ((x :: t) ++ rest) = x :: t := by
    rw [List.takeWhile_append_of_pos, hrest2, List.append_nil]
    intro c hc
    have : c ≠ ' ' := fun h => hsp (h ▸ hc)
    simpa using this
  unfold strtokFirst
  simp only [hdrop, htake]
  rw [if_neg (by simp)]

theorem checkIfRight_returned_some (m : MatchSet) (rest : CStr) (stdin : List Char) (cand : CStr)
    (h : (checkIfRight m rest stdin).2 = Outcome.returned (some cand)) : m.getD 1 none ≠ none := by
  unfold checkIfRight at h
  have hd : (m.drop 1)[0]? = m[1]? := by rw [List.getElem?_drop]
  rw [List.getD_eq_getElem?_getD, ← hd]
  cases hl : m.drop 1 with
  | nil => rw [hl] at h; simp [checkIfRightFrom] at h
  | cons a more =>
    cases a with
    | none => rw [hl] at h; simp [checkIfRightFrom] at h
    | some c => simp

theorem mainChild_corrected (execs : CStr → Bool) (index : List CStr) (token rest cand : CStr)
    (stdin : List Char) (hne : token ≠ []) (hsp : ' ' ∉ token)
    (hrest : rest = [] ∨ ∃ r, rest = ' ' :: r) (habs : token ∉ index)
    (hconf : (checkIfRight (closestMatchesLoop token index (List.replicate 10 none) 1) rest stdin).2
      = Outcome.returned (some cand)) :
    (mainChild execs (some index) (token ++ rest) stdin).1 =
      [Action.notFound (token ++ rest)] ++
        (checkIfRight (closestMatchesLoop token index (List.replicate 10 none) 1) rest stdin).1.map
          Action.ask ++
        [Action.run ((cand ++ rest).take (MAX_LINE - 1))] := by
  have htok := strtokFirst_append token rest hne hsp hrest
  have h0 : (closestMatchesLoop token index (List.replicate 10 none) 1).getD 0 none = none := by
    rw [List.getD_eq_getElem?_getD, closestMatchesLoop_slot0_absent token index habs _ 1 le_rfl]
    rfl
  have h1 := checkIfRight_returned_some _ rest stdin cand hconf
  simp only [mainChild, htok, closestMatches, h0, List.drop_left, ne_eq, not_true_eq_false,
    false_and, if_false, if_neg h1, hconf, snprintfTemp, List.nil_append]

/-- C9 (as amended). For an input line that begins with its first token, a
token absent from the index and a candidate `checkIfRight` returns as
confirmed, the child reports, asks, and then passes to `run` the candidate
followed by everything that came after the token, cut to `MAX_LINE - 1`
characters; when that text is shorter than `MAX_LINE` it is passed whole. -/
theorem corrected_line_passed_to_run (execs : CStr → Bool) (index : List CStr)
    (token rest cand : CStr) (stdin : List Char) (hne : token ≠ []) (hsp : ' ' ∉ token)
    (hrest : rest = [] ∨ ∃ r, rest = ' ' :: r) (habs : token ∉ index)
    (hconf : (checkIfRight (closestMatchesLoop token index (List.replicate 10 none) 1) rest stdin).2
      = Outcome.returned (some cand)) :
    (mainChild execs (some index) (token ++ rest) stdin).1 =
      [Action.notFound (token ++ rest)] ++
        (checkIfRight (closestMatchesLoop token index (List.replicate 10 none) 1) rest stdin).1.map
          Action.ask ++
        [Action.run ((cand ++ rest).take (MAX_LINE - 1))] ∧
    ((cand ++ rest).length < MAX_LINE →
      (mainChild execs (some index) (token ++ rest) stdin).1.getLast?
        = some (Action.run (cand ++ rest))) := by
  have h := mainChild_corrected execs index token rest cand stdin hne hsp hrest habs hconf
  refine ⟨h, fun hlen => ?_⟩
  rw [h, List.getLast?_append, List.take_of_length_le (by omega)]
  rfl

theorem corrected_line_passed_to_run_witness :
    (checkIfRight (closestMatchesLoop ['s', 'l'] [['l', 's']] (List.replicate 10 none) 1)
        [' ', '-', 'l'] ['y', '\n']).2 = Outcome.returned (some ['l', 's']) ∧
    (mainChild (fun _ => true) (some [['l', 's']]) (['s', 'l'] ++ [' ', '-', 'l'])
        ['y', '\n']).1.getLast? = some (Action.run (['l', 's'] ++ [' ', '-', 'l'])) :=
  ⟨by decide,
   (corrected_line_passed_to_run (fun _ => true) [['l', 's']] ['s', 'l'] [' ', '-', 'l']
      ['l', 's'] ['y', '\n'] (by decide) (by decide) (Or.inr ⟨_, rfl⟩) (by decide)
      (by decide)).2 (by decide)⟩

/-- C9 fails as stated: on the line `l xxx...x` of 79 characters, with `ls` in
the index and confirmed, `run` receives `ls xxx...x` without its last `x`:
`snprintf` keeps `MAX_LINE - 1 = 79` of the 80 characters. -/
theorem corrected_line_truncated :
    strtokFirst longLine = some ['l'] ∧ longLine.length = 79 ∧ ['l'] ∉ [['l', 's']] ∧
    (checkIfRight (closestMatchesLoop ['l'] [['l', 's']] (List.replicate 10 none) 1)
        (longLine.drop 1) ['y', '\n']).2 = Outcome.returned (some ['l', 's']) ∧
    (mainChild (fun _ => true) (some [['l', 's']]) longLine ['y', '\n']).1.getLast?
      = some (Action.run (['l', 's', ' '] ++ List.replicate 76 'x')) ∧
    Action.run (['l', 's'] ++ longLine.drop 1) ∉
      (mainChild (fun _ => true) (some [['l', 's']]) longLine ['y', '\n']).1 := by
  refine ⟨by decide, by decide, by decide, by decide, by decide, by decide⟩

/-- A line that begins with a space: `restOfCommand` is taken `strlen` of the
token after the start of the buffer, not after the token, so `run` receives
`lsl -l` for the line ` sl -l` corrected to `ls`. -/
theorem leading_space_offset :
    mainChild (fun _ => true) (some [['l', 's']]) [' ', 's', 'l', ' ', '-', 'l'] ['y', '\n'] =
      ([Action.notFound [' ', 's', 'l', ' ', '-', 'l'], Action.ask ['l', 's', 'l', ' ', '-', 'l'],
        Action.run ['l', 's', 'l', ' ', '-', 'l']], Ending.replaced) := by
  decide

/-! ## The distance code at its failing inputs -/

/-- C2. The string `aaa` is `aa` with one character inserted, and neither
metric is `1`: the lengths differ and `levenshteinDistance` returns `2`, so
the matcher rejects it.  The token `sl` does accept `ls`. -/
theorem one_insertion_rejected :
    OneEdit ['a', 'a'] ['a', 'a', 'a'] ∧
    hammingDistance ['a', 'a'] ['a', 'a', 'a'] = -1 ∧
    levenshteinDistance ['a', 'a'] ['a', 'a', 'a'] = 2 ∧
    ¬ atDistanceOne ['a', 'a'] ['a', 'a', 'a'] ∧
    atDistanceOne ['s', 'l'] ['l', 's'] :=
  ⟨OneEdit.insertion [] ['a', 'a'] 'a', by decide, by decide, by decide, by decide⟩

/-- C4. On the identical strings `aa` and `aa` `levenshteinDistance` returns
`1`, not `0`: the swap rule overwrites the minimum. -/
theorem levenshteinDistance_self_one : levenshteinDistance ['a', 'a'] ['a', 'a'] = 1 := by
  decide

/-- C5. For `ab` and `aba` the plain Levenshtein distance is `1` and
`levenshteinDistance` returns `2`. -/
theorem levenshteinDistance_above_plain :
    plainLevenshtein ['a', 'b'] ['a', 'b', 'a'] = 1 ∧
    levenshteinDistance ['a', 'b'] ['a', 'b', 'a'] = 2 := by
  refine ⟨by decide, by decide⟩


/-! ## The code at the failing inputs of the tokenizer, the index, the built-ins and the MatchSet -/

/-- C13. For the 80 bytes `a`, newline, ..., newline `setup` stores 79 pointers
in `args` before the terminating `NULL`: `start` is not reset at a newline, so
every further newline stores the same pointer again. -/
theorem setup_stores_79_pointers :
    manyNewlines.length = 80 ∧
    ∃ st, setup (ReadResult.data manyNewlines) (List.replicate 80 'z') (List.replicate 80 none) 0
        = SetupResult.done st ∧ st.ct = 79 ∧ (untilNull st.args).length = 79 := by
  refine ⟨by decide, _, rfl, by decide, by decide⟩

/-- C16. With the ten directories `0` to `9`, of which `0` holds `ls` and `1`
holds `cat`, the index `getCommands` returns holds `.`, `..` and `cat`: the
entries of directory `1` are written over those of directory `0`, because
`count` starts at `0` again for every directory. -/
theorem getCommands_loses_first_directory :
    twoOpenDirs ['0'] = some [['.'], ['.', '.'], ['l', 's']] ∧ ['0'] ∈ tenDirs ∧
    getCommands twoOpenDirs tenDirs = Outcome.returned [['.'], ['.', '.'], ['c', 'a', 't']] ∧
    ¬ (∃ index, getCommands twoOpenDirs tenDirs = Outcome.returned index ∧ ['l', 's'] ∈ index) := by
  refine ⟨by decide, by decide, by decide, ?_⟩
  rintro ⟨index, h, hmem⟩
  have h2 : getCommands twoOpenDirs tenDirs
      = Outcome.returned [['.'], ['.', '.'], ['c', 'a', 't']] := by decide
  rw [h2] at h
  cases h
  revert hmem
  decide

/-- C17. On a blank line `setup` leaves the empty string in `inputBuffer`,
and `checkIntegratedCommands` hands the `NULL` token to `strcmp`; for
`tepisan` without arguments, or with one argument, it hands `NULL` to `atoi`. -/
theorem checkIntegratedCommands_faults :
    (∃ st, setup (ReadResult.data ['\n']) (List.replicate 80 'z') (List.replicate 80 none) 0
        = SetupResult.done st ∧ cstrAt st.inputBuffer 0 = some []) ∧
    checkIntegratedCommands emptyHistory [] = BuiltinResult.fault ∧
    checkIntegratedCommands emptyHistory ['t', 'e', 'p', 'i', 's', 'a', 'n'] = BuiltinResult.fault ∧
    checkIntegratedCommands emptyHistory ['t', 'e', 'p', 'i', 's', 'a', 'n', ' ', 'x']
      = BuiltinResult.fault := by
  refine ⟨⟨_, rfl, by decide⟩, by decide, by decide, by decide⟩

/-- C20. With nine commands at distance one in the index, the slots `1` to
`9` of the MatchSet are all filled, no slot holds `NULL`, and `checkIfRight`,
answered `n` nine times, reads slot `10`, past the end of the array. -/
theorem matchSet_without_null :
    closestMatches (some nineNear) ['a'] =
      some [none, some ['b'], some ['c'], some ['d'], some ['e'], some ['f'], some ['g'],
        some ['h'], some ['i'], some ['j']] ∧
    (checkIfRight [none, some ['b'], some ['c'], some ['d'], some ['e'], some ['f'], some ['g'],
        some ['h'], some ['i'], some ['j']] [] (stdinOf (List.replicate 9 ['n']))).2
      = Outcome.fault := by
  refine ⟨by decide, by decide⟩


/-! ## Soundness and order of `closestMatches` -/

theorem set_slot_append (pre : MatchSet) (k : Nat) (c : CStr) (hk : 1 ≤ k) :
    (pre ++ List.replicate k none).set pre.length (some c)
      = (pre ++ [some c]) ++ List.replicate (k - 1) none := by
  obtain ⟨k, rfl⟩ : ∃ j, k = j + 1 := ⟨k - 1, by omega⟩
  rw [List.set_append_right _ _ (le_refl _), Nat.sub_self, List.replicate_succ, List.set_cons_zero,
    Nat.add_sub_cancel, List.append_assoc, List.singleton_append]

theorem set_zero_append (pre : MatchSet) (tail : MatchSet) (x : Option CStr) (hpre : pre ≠ []) :
    (pre ++ tail).set 0 x = pre.set 0 x ++ tail := by
  obtain ⟨a, pre', rfl⟩ := List.exists_cons_of_ne_nil hpre
  rfl

/-- The loop of `closestMatches` only adds, after the slots already written,
commands of the index that pass the distance test, in the order of the
index; slot `0` is the only other slot it may write. -/
theorem closestMatchesLoop_sound (token : CStr) (cmds : List CStr) :
    ∀ (pre : MatchSet) (k : Nat), pre ≠ [] → pre.length ≤ 9 → pre.length + k = 10 →
      ∃ (added : List CStr) (s0 : Option CStr),
        added.Sublist cmds ∧ (∀ c ∈ added, atDistanceOne token c) ∧
        closestMatchesLoop token cmds (pre ++ List.replicate k none) pre.length
          = pre.set 0 s0 ++ added.map some ++ List.replicate (k - added.length) none := by
  induction cmds with
  | nil =>
    intro pre k hpre _ _
    obtain ⟨a, pre', rfl⟩ := List.exists_cons_of_ne_nil hpre
    exact ⟨[], a, List.Sublist.refl _, by simp, by simp [closestMatchesLoop_nil]⟩
  | cons c rest ih =>
    intro pre k hpre h9 h10
    rw [closestMatchesLoop_cons]
    by_cases h0 : hammingDistance token c = 0
    · rw [if_pos h0]
      exact ⟨[], some token, List.nil_sublist _, by simp, by
        simp [set_zero_append pre _ _ hpre]⟩
    · rw [if_neg h0]
      by_cases hd : atDistanceOne token c
      · rw [if_pos hd, set_slot_append pre k c (by omega)]
        by_cases hfull : pre.length + 1 ≥ 10
        · rw [if_pos hfull]
          obtain ⟨a, pre', rfl⟩ := List.exists_cons_of_ne_nil hpre
          refine ⟨[c], a, ?_, ?_, ?_⟩
          · exact List.Sublist.cons₂ _ (List.nil_sublist _)
          · intro x hx
            rw [List.mem_singleton] at hx
            exact hx ▸ hd
          · simp
        · rw [if_neg hfull]
          have hlen : (pre ++ [some c]).length = pre.length + 1 := by simp
          obtain ⟨added, s0, hsub, hall, heq⟩ :=
            ih (pre ++ [some c]) (k - 1) (by simp) (by rw [hlen]; omega) (by rw [hlen]; omega)
          rw [hlen] at heq
          refine ⟨c :: added, s0, List.Sublist.cons₂ _ hsub, ?_, ?_⟩
          · intro x hx
            rcases List.mem_cons.mp hx with rfl | hx
            · exact hd
            · exact hall x hx
          · rw [heq, set_zero_append pre _ _ hpre]
            simp [Nat.sub_sub, Nat.add_comm]
      · rw [if_neg hd]
        obtain ⟨added, s0, hsub, hall, heq⟩ := ih pre k hpre h9 h10
        exact ⟨added, s0, List.Sublist.cons _ hsub, hall, heq⟩

theorem reduceOption_map_some_append_replicate (l : List CStr) (n : Nat) :
    (l.map some ++ List.replicate n none).reduceOption = l := by
  induction l with
  | nil =>
    induction n with
    | zero => rfl
    | succ n ih =>
      rw [List.map_nil, List.nil_append] at ih ⊢
      rw [List.replicate_succ, List.reduceOption_cons_of_none, ih]
  | cons a l ih =>
    rw [List.map_cons, List.cons_append, List.reduceOption_cons_of_some, ih]

/-- C19. Every candidate `closestMatches` stores in the slots `1` and up is
an entry of the index that passes the distance test, and the candidates are in
the order of the index: they form a subsequence of it. -/
theorem closestMatches_sound (index : List CStr) (token : CStr) (m : MatchSet)
    (h : closestMatches (some index) token = some m) :
    ((m.drop 1).reduceOption).Sublist index ∧
    ∀ c ∈ (m.drop 1).reduceOption, c ∈ index ∧ atDistanceOne token c := by
  obtain ⟨added, s0, hsub, hall, heq⟩ :=
    closestMatchesLoop_sound token index [none] 9 (by simp) (by simp) (by simp)
  have hm : m = [s0] ++ added.map some ++ List.replicate (9 - added.length) none := by
    have h2 : closestMatches (some index) token
        = some (closestMatchesLoop token index ([none] ++ List.replicate 9 none) 1) := rfl
    rw [h2] at h
    rw [← Option.some.inj h]
    exact heq
  have hstored : (m.drop 1).reduceOption = added := by
    rw [hm]
    simp only [List.singleton_append, List.cons_append, List.drop_succ_cons, List.drop_zero]
    exact reduceOption_map_some_append_replicate _ _
  rw [hstored]
  exact ⟨hsub, fun c hc => ⟨hsub.subset hc, hall c hc⟩⟩

theorem closestMatches_sound_witness :
    closestMatches (some [['l', 's'], ['c', 'd'], ['s', 'h']]) ['s', 'l'] =
      some [none, some ['l', 's'], some ['s', 'h'], none, none, none, none, none, none, none] ∧
    ([none, some ['l', 's'], some ['s', 'h'], none, none, none, none, none, none, none].drop
      1).reduceOption.Sublist [['l', 's'], ['c', 'd'], ['s', 'h']] :=
  ⟨by decide,
   (closestMatches_sound [['l', 's'], ['c', 'd'], ['s', 'h']] ['s', 'l']
      [none, some ['l', 's'], some ['s', 'h'], none, none, none, none, none, none, none]
      (by decide)).1⟩


/-! ## Properties of `saveHistory` -/

theorem shiftLoop_length (rows : List CStr) (n : Nat) :
    (forLoop 1 n (fun i rows => rows.set (i - 1) (rows.getD i [])) rows).length = rows.length := by
  induction n with
  | zero => rfl
  | succ n ih =>
    rw [forLoop, List.length_set]
    exact ih

theorem shiftLoop_getElem? (rows : List CStr) (n : Nat) (hn : n < rows.length) :
    ∀ j, (forLoop 1 n (fun i rows => rows.set (i - 1) (rows.getD i [])) rows)[j]?
      = if j < n then rows[j + 1]? else rows[j]? := by
  induction n with
  | zero => intro j; simp [forLoop]
  | succ n ih =>
    intro j
    have ih := ih (by omega)
    have hlen := shiftLoop_length rows n
    rw [forLoop, Nat.add_sub_cancel_left]
    by_cases hj : j = n
    · subst hj
      rw [List.getElem?_set_self (by rw [hlen]; omega), if_pos (by omega),
        List.getD_eq_getElem?_getD, ih (1 + j), if_neg (by omega), Nat.add_comm 1 j,
        List.getElem?_eq_getElem (by omega)]
      rfl
    · rw [List.getElem?_set_ne (by omega), ih j]
      by_cases hlt : j < n
      · rw [if_pos hlt, if_pos (by omega)]
      · rw [if_neg hlt, if_neg (by omega)]


theorem lastN_of_length_le {α : Type} (n : Nat) (l : List α) (h : l.length ≤ n) : lastN n l = l := by
  unfold lastN
  rw [Nat.sub_eq_zero_of_le h, List.drop_zero]

theorem length_lastN {α : Type} (n : Nat) (l : List α) : (lastN n l).length = min n l.length := by
  unfold lastN
  rw [List.length_drop]
  omega

theorem lastN_append_lastN {α : Type} (n : Nat) (a b : List α) :
    lastN n (lastN n a ++ b) = lastN n (a ++ b) := by
  unfold lastN
  by_cases h : a.length ≤ n
  · rw [Nat.sub_eq_zero_of_le h, List.drop_zero]
  · have hlen : (List.drop (a.length - n) a).length = n := by rw [List.length_drop]; omega
    have e1 : (List.drop (a.length - n) a ++ b).length - n = b.length := by
      rw [List.length_append, hlen]; omega
    have e2 : (a ++ b).length - n = (List.take (a.length - n) a).length + b.length := by
      rw [List.length_append, List.length_take]; omega
    have e3 : a ++ b = List.take (a.length - n) a ++ (List.drop (a.length - n) a ++ b) := by
      rw [← List.append_assoc, List.take_append_drop]
    rw [e1, e2]
    conv_rhs => rw [e3]
    rw [List.drop_append]

theorem getLast?_lastN_append_singleton (n : Nat) (kept : List CStr) (line : CStr) (hn : 0 < n) :
    (lastN n (kept ++ [line])).getLast? = some line := by
  unfold lastN
  rw [List.getLast?_drop, if_neg (by simp; omega)]
  simp

theorem historyOf_rows_length (kept : List CStr) (hk : kept.length ≤ 20) :
    (historyOf kept).rows.length = 20 := by
  simp [historyOf]
  omega

theorem historyOf_last (kept : List CStr) :
    (historyOf kept).rows.getD (kept.length - 1) [] = (kept.getLast?).getD [] := by
  unfold historyOf
  cases hkept : kept with
  | nil => simp
  | cons a t =>
    rw [← hkept]
    have hpos : 0 < kept.length := by rw [hkept]; simp
    rw [List.getD_eq_getElem?_getD, List.getElem?_append_left (by omega),
      List.getLast?_eq_getElem?]

theorem saveHistory_historyOf (kept : List CStr) (line : CStr) (hk : kept.length ≤ 20)
    (hne : line ≠ []) (hfit : line.length < MAX_LINE) (hlast : kept.getLast? ≠ some line) :
    saveHistory (historyOf kept) line
      = Outcome.returned (historyOf (lastN 20 (kept ++ [line]))) := by
  have hpos : line.length > 0 := List.length_pos.mpr hne
  have hcond : (historyOf kept).historyCount = 0 ∨
      (historyOf kept).rows.getD ((historyOf kept).historyCount - 1) [] ≠ line := by
    by_cases hnil : kept = []
    · left; subst hnil; rfl
    · right
      have hc : (historyOf kept).historyCount = kept.length := rfl
      rw [hc, historyOf_last]
      obtain ⟨x, hx⟩ : ∃ x, kept.getLast? = some x := by
        cases hg : kept.getLast? with
        | none => exact absurd (List.getLast?_eq_none_iff.mp hg) hnil
        | some x => exact ⟨x, rfl⟩
      rw [hx] at hlast ⊢
      intro h
      exact hlast (by rw [← h]; rfl)
  unfold saveHistory
  rw [if_pos ⟨hpos, hcond⟩, if_neg (by omega)]
  have hc : (historyOf kept).historyCount = kept.length := rfl
  rw [hc]
  by_cases hlt : kept.length < 20
  · rw [if_pos hlt, lastN_of_length_le 20 _ (by simp; omega)]
    have hS : (historyOf kept).rows.set kept.length line
        = (kept ++ [line]) ++ List.replicate (20 - (kept ++ [line]).length) [] := by
      unfold historyOf
      obtain ⟨k, hk2⟩ : ∃ k, 20 - kept.length = k + 1 := ⟨20 - kept.length - 1, by omega⟩
      have hk3 : 20 - (kept ++ [line]).length = k := by simp; omega
      rw [hk2, hk3, List.set_append_right _ _ (le_refl _), Nat.sub_self, List.replicate_succ,
        List.set_cons_zero, List.append_assoc, List.singleton_append]
    have hC : kept.length + 1 = (kept ++ [line]).length := by simp
    rw [hS, hC]
    rfl
  · rw [if_neg hlt]
    have h20 : kept.length = 20 := by omega
    have hrows : (historyOf kept).rows = kept := by
      unfold historyOf
      simp [h20]
    have hdrop : lastN 20 (kept ++ [line]) = kept.drop 1 ++ [line] := by
      unfold lastN
      rw [List.length_append, List.length_singleton, h20,
        List.drop_append_of_le_length (by omega)]
    have hl2 : (kept.drop 1 ++ [line]).length = 20 := by simp [h20]
    have hR : (forLoop 1 19 (fun i rows => rows.set (i - 1) (rows.getD i [])) kept).set (20 - 1) line
        = kept.drop 1 ++ [line] := by
      apply List.ext_getElem?
      intro j
      by_cases hj : j = 19
      · subst hj
        rw [List.getElem?_set_self (by rw [shiftLoop_length]; omega),
          List.getElem?_append_right (by simp [h20])]
        simp [h20]
      · rw [List.getElem?_set_ne (by omega), shiftLoop_getElem? kept 19 (by omega) j]
        by_cases hj2 : j < 19
        · rw [if_pos hj2, List.getElem?_append_left (by simp [h20]; omega), List.getElem?_drop,
            Nat.add_comm]
        · rw [if_neg hj2, List.getElem?_eq_none (by omega),
            List.getElem?_eq_none (by simp [h20]; omega)]
    have hH : historyOf (kept.drop 1 ++ [line]) = ⟨kept.drop 1 ++ [line], kept.length⟩ := by
      unfold historyOf
      rw [hl2, Nat.sub_self, List.replicate_zero, List.append_nil, h20]
    rw [hrows, hdrop, hH]
    simp only []
    rw [hR]


theorem saveHistoryAll_historyOf (lines : List CStr) :
    ∀ (kept : List CStr), kept.length ≤ 20 →
      (∀ l ∈ lines, l ≠ [] ∧ l.length < MAX_LINE) → List.Chain' (fun a b => a ≠ b) lines →
      (∀ x, kept.getLast? = some x → lines.head? ≠ some x) →
      saveHistoryAll (historyOf kept) lines
        = Outcome.returned (historyOf (lastN 20 (kept ++ lines))) := by
  induction lines with
  | nil =>
    intro kept hk _ _ _
    rw [List.append_nil, lastN_of_length_le 20 kept hk]
    rfl
  | cons l more ih =>
    intro kept hk hall hchain hhead
    have hl := hall l (by simp)
    have hlast : kept.getLast? ≠ some l := by
      intro h
      exact hhead l h rfl
    rw [saveHistoryAll, saveHistory_historyOf kept l hk hl.1 hl.2 hlast]
    simp only []
    rw [List.chain'_cons'] at hchain
    rw [ih (lastN 20 (kept ++ [l])) (by rw [length_lastN]; omega)
      (fun x hx => hall x (by simp [hx])) hchain.2, lastN_append_lastN, List.append_assoc,
      List.singleton_append]
    intro x hx
    rw [getLast?_lastN_append_singleton 20 kept l (by omega)] at hx
    cases hx
    intro h
    exact hchain.1 l (by rw [h]; rfl) rfl

theorem historyListing_eq (rows : List CStr) (n : Nat) (hn : n ≤ rows.length) :
    historyListing ⟨rows, n⟩ = List.zip (List.range' 1 n) (rows.take n) := by
  unfold historyListing
  simp only []
  induction n with
  | zero => rfl
  | succ n ih =>
    have ih := ih (by omega)
    rw [forLoop, ih, List.range'_concat, List.take_succ,
      List.getElem?_eq_getElem (by omega), List.zip_append (by simp; omega),
      List.getD_eq_getElem?_getD, List.getElem?_eq_getElem (by omega)]
    simp [Nat.add_comm]

/-- C14. After more than twenty pairwise different non-empty lines (each one a
string `inputBuffer` can hold) have been passed to `saveHistory` one by one,
starting from the empty history, `historyCount` is `20` and the rows hold the
last twenty lines, oldest first, which the `history` built-in lists numbered
from `1`. -/
theorem history_keeps_last_twenty (lines : List CStr) (hdistinct : lines.Nodup)
    (hne : ∀ l ∈ lines, l ≠ []) (hfit : ∀ l ∈ lines, l.length < MAX_LINE)
    (hlen : 20 < lines.length) :
    ∃ h, saveHistoryAll emptyHistory lines = Outcome.returned h ∧ h.historyCount = 20 ∧
      h.rows = lines.drop (lines.length - 20) ∧
      historyListing h = List.zip (List.range' 1 20) (lines.drop (lines.length - 20)) := by
  have hchain : List.Chain' (fun a b : CStr => a ≠ b) lines := List.Pairwise.chain' hdistinct
  have hrun := saveHistoryAll_historyOf lines [] (by simp)
    (fun l hl => ⟨hne l hl, hfit l hl⟩) hchain (by simp)
  have hlast : (lastN 20 lines).length = 20 := by rw [length_lastN]; omega
  have hH : historyOf (lastN 20 lines) = ⟨lines.drop (lines.length - 20), 20⟩ := by
    unfold historyOf
    rw [hlast, Nat.sub_self, List.replicate_zero, List.append_nil]
    rfl
  rw [List.nil_append, hH] at hrun
  refine ⟨_, hrun, rfl, rfl, ?_⟩
  have hlen2 : (lines.drop (lines.length - 20)).length = 20 := hlast
  rw [historyListing_eq _ 20 (by omega), List.take_of_length_le (by omega)]

theorem history_keeps_last_twenty_witness :
    ∃ h, saveHistoryAll emptyHistory twentyOneLines = Outcome.returned h ∧ h.historyCount = 20 ∧
      h.rows = twentyOneLines.drop (twentyOneLines.length - 20) ∧
      historyListing h
        = List.zip (List.range' 1 20) (twentyOneLines.drop (twentyOneLines.length - 20)) :=
  history_keeps_last_twenty twentyOneLines (by decide) (by decide) (by decide) (by decide)

/-- C15. From a history of twenty rows with `historyCount` at most `20`, and
for a line `inputBuffer` can hold, `saveHistory` returns, and a second call
with the same line leaves the history (count and rows) as the first call left
it; the empty line changes nothing. -/
theorem saveHistory_twice (h : History) (line : CStr) (hrows : h.rows.length = 20)
    (hcount : h.historyCount ≤ 20) (hfit : line.length < MAX_LINE) :
    (∃ h1, saveHistory h line = Outcome.returned h1 ∧
      saveHistory h1 line = Outcome.returned h1) ∧
    saveHistory h [] = Outcome.returned h := by
  refine ⟨?_, by simp [saveHistory]⟩
  by_cases hcond : line.length > 0 ∧
      (h.historyCount = 0 ∨ h.rows.getD (h.historyCount - 1) [] ≠ line)
  · have hnofit : ¬ line.length ≥ MAX_LINE := by omega
    by_cases hlt : h.historyCount < 20
    · refine ⟨⟨h.rows.set h.historyCount line, h.historyCount + 1⟩, ?_, ?_⟩
      · rw [saveHistory, if_pos hcond, if_neg hnofit, if_pos hlt]
      · have hstored : (h.rows.set h.historyCount line).getD (h.historyCount + 1 - 1) [] = line := by
          rw [Nat.add_sub_cancel, List.getD_eq_getElem?_getD,
            List.getElem?_set_self (by omega)]
          rfl
        rw [saveHistory, if_neg]
        simp only [hstored]
        rintro ⟨_, h0 | h1⟩
        · omega
        · exact h1 rfl
    · refine ⟨⟨(forLoop 1 19 (fun i rows => rows.set (i - 1) (rows.getD i [])) h.rows).set
          (20 - 1) line, h.historyCount⟩, ?_, ?_⟩
      · rw [saveHistory, if_pos hcond, if_neg hnofit, if_neg hlt]
      · have h20 : h.historyCount = 20 := by omega
        have hstored : ((forLoop 1 19 (fun i rows => rows.set (i - 1) (rows.getD i [])) h.rows).set
            (20 - 1) line).getD (h.historyCount - 1) [] = line := by
          rw [h20, List.getD_eq_getElem?_getD,
            List.getElem?_set_self (by rw [shiftLoop_length]; omega)]
          rfl
        rw [saveHistory, if_neg]
        simp only [hstored]
        rintro ⟨_, h0 | h1⟩
        · omega
        · exact h1 rfl
  · exact ⟨h, by rw [saveHistory, if_neg hcond], by rw [saveHistory, if_neg hcond]⟩

theorem saveHistory_twice_witness :
    (∃ h1, saveHistory emptyHistory ['l', 's'] = Outcome.returned h1 ∧
      saveHistory h1 ['l', 's'] = Outcome.returned h1) ∧
    saveHistory emptyHistory [] = Outcome.returned emptyHistory :=
  saveHistory_twice emptyHistory ['l', 's'] (by decide) (by decide) (by decide)


/-! ## Properties of `setup` -/

theorem storeArg_inputBuffer (st : SetupState) : (storeArg st).inputBuffer = st.inputBuffer := by
  unfold storeArg
  split_ifs <;> rfl

theorem storeArg_background (st : SetupState) : (storeArg st).background = st.background := by
  unfold storeArg
  split_ifs <;> rfl

theorem set_charAt_self (l : List Char) (i : Nat) : l.set i (charAt l i) = l := by
  apply List.ext_getElem?
  intro j
  by_cases hj : j = i
  · subst hj
    by_cases hlt : j < l.length
    · rw [List.getElem?_set_self hlt, charAt_eq_getElem l j hlt, List.getElem?_eq_getElem hlt]
    · rw [List.getElem?_eq_none (by simp; omega), List.getElem?_eq_none (by omega)]
  · rw [List.getElem?_set_ne (by omega)]

/-- One turn of the loop of `setup` writes `setupByte` of the byte it reads,
and nothing else, in `inputBuffer`. -/
theorem setupBody_inputBuffer (i : Nat) (st : SetupState) :
    (setupBody i st).inputBuffer = st.inputBuffer.set i (setupByte (charAt st.inputBuffer i)) := by
  unfold setupBody setupByte
  simp only []
  by_cases h1 : charAt st.inputBuffer i = ' ' ∨ charAt st.inputBuffer i = '\t'
  · rw [if_pos h1, if_pos h1, storeArg_inputBuffer]
  · rw [if_neg h1, if_neg h1]
    by_cases h2 : charAt st.inputBuffer i = '\n'
    · rw [if_pos h2, if_pos (Or.inl h2), storeArg_inputBuffer]
    · rw [if_neg h2]
      by_cases h3 : charAt st.inputBuffer i = '&'
      · rw [if_pos h3, if_pos (Or.inr h3)]
        split_ifs <;> rfl
      · have h23 : ¬ (charAt st.inputBuffer i = '\n' ∨ charAt st.inputBuffer i = '&') := by
          rintro (h | h)
          · exact h2 h
          · exact h3 h
        rw [if_neg h3, if_neg h23, set_charAt_self]
        split_ifs <;> rfl

/-- One turn of the loop of `setup` sets the flag exactly when it reads `&`. -/
theorem setupBody_background (i : Nat) (st : SetupState) :
    (setupBody i st).background = if charAt st.inputBuffer i = '&' then 1 else st.background := by
  unfold setupBody
  simp only []
  by_cases h1 : charAt st.inputBuffer i = ' ' ∨ charAt st.inputBuffer i = '\t'
  · have hne : ¬ charAt st.inputBuffer i = '&' := by
      intro h; rw [h] at h1; revert h1; decide
    rw [if_pos h1, if_neg hne]
    exact storeArg_background st
  · rw [if_neg h1]
    by_cases h2 : charAt st.inputBuffer i = '\n'
    · have hne : ¬ charAt st.inputBuffer i = '&' := by
        intro h; rw [h] at h2; revert h2; decide
      rw [if_pos h2, if_neg hne]
      exact storeArg_background st
    · rw [if_neg h2]
      by_cases h3 : charAt st.inputBuffer i = '&'
      · rw [if_pos h3, if_pos h3]
      · rw [if_neg h3, if_neg h3]
        split_ifs <;> rfl

/-- After `n` turns the first `n` bytes of `inputBuffer` have been replaced
by their `setupByte`, the others are as they were read. -/
theorem setupLoop_inputBuffer (st : SetupState) (n : Nat) (hn : n ≤ st.inputBuffer.length) :
    (forLoop 0 n setupBody st).inputBuffer
      = (st.inputBuffer.take n).map setupByte ++ st.inputBuffer.drop n := by
  induction n with
  | zero => simp [forLoop]
  | succ n ih =>
    have ih := ih (by omega)
    have hlen : ((st.inputBuffer.take n).map setupByte).length = n := by
      rw [List.length_map, List.length_take]; omega
    have hdrop : st.inputBuffer.drop n = st.inputBuffer[n] :: st.inputBuffer.drop (n + 1) :=
      List.drop_eq_getElem_cons (by omega)
    have hch : charAt (forLoop 0 n setupBody st).inputBuffer n = st.inputBuffer[n] := by
      rw [ih, hdrop]
      unfold charAt
      rw [List.getD_eq_getElem?_getD, List.getElem?_append_right (by omega), hlen, Nat.sub_self,
        List.getElem?_cons_zero]
      rfl
    rw [forLoop, Nat.zero_add, setupBody_inputBuffer, hch, ih, hdrop,
      List.set_append_right _ _ (by omega), hlen, Nat.sub_self, List.set_cons_zero,
      List.take_succ, List.getElem?_eq_getElem (by omega), List.map_append]
    simp

theorem setupLoop_charAt (st : SetupState) (n : Nat) (hn : n < st.inputBuffer.length) :
    charAt (forLoop 0 n setupBody st).inputBuffer n = st.inputBuffer[n] := by
  have hlen : ((st.inputBuffer.take n).map setupByte).length = n := by
    rw [List.length_map, List.length_take]; omega
  rw [setupLoop_inputBuffer st n (by omega), List.drop_eq_getElem_cons hn]
  unfold charAt
  rw [List.getD_eq_getElem?_getD, List.getElem?_append_right (by omega), hlen, Nat.sub_self,
    List.getElem?_cons_zero]
  rfl

theorem setupLoop_background (st : SetupState) (n : Nat) (hn : n ≤ st.inputBuffer.length) :
    (forLoop 0 n setupBody st).background
      = if '&' ∈ st.inputBuffer.take n then 1 else st.background := by
  induction n with
  | zero => simp [forLoop]
  | succ n ih =>
    have ih := ih (by omega)
    rw [forLoop, Nat.zero_add, setupBody_background, setupLoop_charAt st n (by omega), ih,
      List.take_succ, List.getElem?_eq_getElem (by omega)]
    have hmem : '&' ∈ st.inputBuffer.take n ++ (some st.inputBuffer[n]).toList
        ↔ ('&' ∈ st.inputBuffer.take n ∨ st.inputBuffer[n] = '&') := by
      show '&' ∈ st.inputBuffer.take n ++ [st.inputBuffer[n]] ↔ _
      rw [List.mem_append, List.mem_singleton]
      constructor
      · rintro (h | h)
        · exact Or.inl h
        · exact Or.inr h.symm
      · rintro (h | h)
        · exact Or.inl h
        · exact Or.inr h.symm
    by_cases h1 : st.inputBuffer[n] = '&'
    · have hm := hmem.mpr (Or.inr h1)
      rw [if_pos h1, if_pos hm]
    · rw [if_neg h1]
      by_cases h2 : '&' ∈ st.inputBuffer.take n
      · have hm := hmem.mpr (Or.inl h2)
        rw [if_pos h2, if_pos hm]
      · have hm : ¬ ('&' ∈ st.inputBuffer.take n ++ (some st.inputBuffer[n]).toList) := by
          rw [hmem]
          rintro (h | h)
          · exact h2 h
          · exact h1 h
        rw [if_neg h2, if_neg hm]


theorem setup_eq (bytes inputBuffer : List Char) (args : List (Option Nat)) (background : Int)
    (hread : bytes ≠ []) :
    setup (ReadResult.data bytes) inputBuffer args background =
      SetupResult.done
        { forLoop 0 bytes.length setupBody
            ⟨bytes ++ inputBuffer.drop bytes.length, args, 0, -1, background⟩ with
          args := (forLoop 0 bytes.length setupBody
              ⟨bytes ++ inputBuffer.drop bytes.length, args, 0, -1, background⟩).args.set
            (forLoop 0 bytes.length setupBody
              ⟨bytes ++ inputBuffer.drop bytes.length, args, 0, -1, background⟩).ct none } := by
  have hlen : bytes.length ≠ 0 := fun h => hread (List.length_eq_zero.mp h)
  rw [setup]
  simp only []
  rw [if_neg hlen]

theorem setup_data (bytes inputBuffer : List Char) (args : List (Option Nat)) (background : Int)
    (hread : bytes ≠ []) :
    ∃ st, setup (ReadResult.data bytes) inputBuffer args background = SetupResult.done st ∧
      st.inputBuffer = bytes.map setupByte ++ inputBuffer.drop bytes.length ∧
      st.background = (if '&' ∈ bytes then 1 else background) ∧
      st.ct = (forLoop 0 bytes.length setupBody
        ⟨bytes ++ inputBuffer.drop bytes.length, args, 0, -1, background⟩).ct := by
  refine ⟨_, setup_eq bytes inputBuffer args background hread, ?_, ?_, rfl⟩
  · show (forLoop 0 bytes.length setupBody _).inputBuffer = _
    rw [setupLoop_inputBuffer _ _ (by simp)]
    simp
  · show (forLoop 0 bytes.length setupBody _).background = _
    rw [setupLoop_background _ _ (by simp)]
    simp

theorem takeWhile_append_stop {p : Char → Bool} (a b : List Char) (x : Char) (hx : p x = false) :
    (a ++ x :: b).takeWhile p = a.takeWhile p := by
  induction a with
  | nil => rw [List.nil_append, List.takeWhile_cons_of_neg (by simp [hx])]; rfl
  | cons c a ih =>
    rw [List.cons_append]
    by_cases hc : p c = true
    · rw [List.takeWhile_cons_of_pos hc, List.takeWhile_cons_of_pos hc, ih]
    · rw [List.takeWhile_cons_of_neg hc, List.takeWhile_cons_of_neg hc]

theorem map_setupByte_token (token : List Char)
    (h : ∀ c ∈ token, c ≠ ' ' ∧ c ≠ '\t' ∧ c ≠ '\n' ∧ c ≠ '&') : token.map setupByte = token := by
  induction token with
  | nil => rfl
  | cons c t ih =>
    obtain ⟨h1, h2, h3, h4⟩ := h c (by simp)
    have hc : setupByte c = c := by
      unfold setupByte
      rw [if_neg (by rintro (h | h); exacts [h1 h, h2 h]),
        if_neg (by rintro (h | h); exacts [h3 h, h4 h])]
    rw [List.map_cons, hc, ih (fun x hx => h x (by simp [hx]))]

/-- C12. After `setup`, entered with the flag cleared, the flag is `1` exactly
when the bytes read contain `&`; and where a token holds `&`, the C string
that starts with the token ends at its first `&`: it is the part of the token
before that `&` (read as a C string). -/
theorem setup_background_flag (bytes inputBuffer : List Char) (args : List (Option Nat))
    (hread : bytes ≠ []) :
    ∃ st, setup (ReadResult.data bytes) inputBuffer args 0 = SetupResult.done st ∧
      (st.background = 1 ↔ '&' ∈ bytes) ∧
      ∀ pre token post, bytes = pre ++ token ++ '&' :: post →
        (∀ c ∈ token, c ≠ ' ' ∧ c ≠ '\t' ∧ c ≠ '\n' ∧ c ≠ '&') →
        cstrAt st.inputBuffer pre.length = some (token.takeWhile (fun c => c ≠ '\x00')) := by
  obtain ⟨st, hst, hbuf, hbg, _⟩ := setup_data bytes inputBuffer args 0 hread
  refine ⟨st, hst, ?_, ?_⟩
  · rw [hbg]
    by_cases h : '&' ∈ bytes
    · simp [h]
    · simp [h]
  · intro pre token post hbytes htoken
    have hdrop : st.inputBuffer.drop pre.length
        = token ++ '\x00' :: (post.map setupByte ++ inputBuffer.drop bytes.length) := by
      rw [hbuf, hbytes, List.map_append, List.map_append, List.map_cons,
        map_setupByte_token token htoken, List.append_assoc, List.append_assoc,
        List.drop_left' (by simp)]
      rfl
    unfold cstrAt
    rw [hdrop, if_pos (by simp), takeWhile_append_stop _ _ _ (by simp)]

theorem setup_background_flag_witness :
    ∃ st, setup (ReadResult.data ['l', 's', '&', '\n']) (List.replicate 80 'z')
        (List.replicate 80 none) 0 = SetupResult.done st ∧
      (st.background = 1 ↔ '&' ∈ ['l', 's', '&', '\n']) ∧
      ∀ pre token post, ['l', 's', '&', '\n'] = pre ++ token ++ '&' :: post →
        (∀ c ∈ token, c ≠ ' ' ∧ c ≠ '\t' ∧ c ≠ '\n' ∧ c ≠ '&') →
        cstrAt st.inputBuffer pre.length = some (token.takeWhile (fun c => c ≠ '\x00')) :=
  setup_background_flag ['l', 's', '&', '\n'] (List.replicate 80 'z') (List.replicate 80 none)
    (by decide)


theorem setupBody_blank (i : Nat) (st : SetupState)
    (h : charAt st.inputBuffer i = ' ' ∨ charAt st.inputBuffer i = '\t') :
    (setupBody i st).args = (storeArg st).args ∧ (setupBody i st).ct = (storeArg st).ct ∧
      (setupBody i st).start = -1 := by
  unfold setupBody
  simp only []
  rw [if_pos h]
  exact ⟨rfl, rfl, rfl⟩

theorem setupBody_newline (i : Nat) (st : SetupState) (h : charAt st.inputBuffer i = '\n') :
    (setupBody i st).args = (storeArg st).args.set (storeArg st).ct none ∧
      (setupBody i st).ct = (storeArg st).ct ∧ (setupBody i st).start = (storeArg st).start := by
  have hb : ¬ (charAt st.inputBuffer i = ' ' ∨ charAt st.inputBuffer i = '\t') := by
    rw [h]; decide
  unfold setupBody
  simp only []
  rw [if_neg hb, if_pos h]
  exact ⟨rfl, rfl, rfl⟩

theorem setupBody_other (i : Nat) (st : SetupState)
    (hb : ¬ (charAt st.inputBuffer i = ' ' ∨ charAt st.inputBuffer i = '\t'))
    (hn : charAt st.inputBuffer i ≠ '\n') :
    (setupBody i st).args = st.args ∧ (setupBody i st).ct = st.ct ∧
      (setupBody i st).start = (if st.start = -1 then (i : Int) else st.start) := by
  unfold setupBody
  simp only []
  rw [if_neg hb, if_neg hn]
  by_cases h1 : st.start = -1
  · rw [if_pos h1, if_pos h1]
    split_ifs <;> exact ⟨rfl, rfl, rfl⟩
  · rw [if_neg h1, if_neg h1]
    split_ifs <;> exact ⟨rfl, rfl, rfl⟩

theorem storeArg_of_no_start (st : SetupState) (h : st.start = -1) : storeArg st = st := by
  unfold storeArg
  rw [if_neg (by simp [h])]

theorem storeArg_of_start (st : SetupState) (h : st.start ≠ -1) :
    storeArg st = { st with args := st.args.set st.ct (some st.start.toNat), ct := st.ct + 1 } := by
  unfold storeArg
  rw [if_pos h]

theorem charAt_append_left (a b : List Char) (n : Nat) (h : n < a.length) :
    charAt (a ++ b) n = charAt a n := by
  unfold charAt
  rw [List.getD_eq_getElem?_getD, List.getD_eq_getElem?_getD, List.getElem?_append_left h]

theorem charAt_append_right (a b : List Char) (n : Nat) (h : a.length ≤ n) :
    charAt (a ++ b) n = charAt b (n - a.length) := by
  unfold charAt
  rw [List.getD_eq_getElem?_getD, List.getD_eq_getElem?_getD, List.getElem?_append_right h]

theorem charAt_mem (a : List Char) (n : Nat) (h : n < a.length) : charAt a n ∈ a := by
  rw [charAt_eq_getElem a n h]
  exact List.getElem_mem h

theorem setupLoop_charAt_eq (st : SetupState) (n : Nat) (hn : n < st.inputBuffer.length) :
    charAt (forLoop 0 n setupBody st).inputBuffer n = charAt st.inputBuffer n := by
  rw [setupLoop_charAt st n hn, charAt_eq_getElem _ _ hn]

/-- The loop of `setup` on leading blanks followed by one token: before the
newline nothing is stored, and `start` is the place of the token once it has
begun. -/
theorem setupLoop_single_token (blanks token rest : List Char) (args : List (Option Nat))
    (background : Int) (hblanks : ∀ c ∈ blanks, c = ' ' ∨ c = '\t')
    (htoken : ∀ c ∈ token, c ≠ ' ' ∧ c ≠ '\t' ∧ c ≠ '\n' ∧ c ≠ '&') (n : Nat)
    (hn : n ≤ blanks.length + token.length) :
    (forLoop 0 n setupBody ⟨blanks ++ token ++ rest, args, 0, -1, background⟩).args = args ∧
    (forLoop 0 n setupBody ⟨blanks ++ token ++ rest, args, 0, -1, background⟩).ct = 0 ∧
    (forLoop 0 n setupBody ⟨blanks ++ token ++ rest, args, 0, -1, background⟩).start
      = (if n ≤ blanks.length then -1 else (blanks.length : Int)) := by
  induction n with
  | zero => exact ⟨rfl, rfl, by simp [forLoop]⟩
  | succ n ih =>
    obtain ⟨ha, hc, hs⟩ := ih (by omega)
    have hlen : n < (blanks ++ token ++ rest).length := by simp; omega
    have hch := setupLoop_charAt_eq ⟨blanks ++ token ++ rest, args, 0, -1, background⟩ n hlen
    simp only [] at hch
    rw [forLoop, Nat.zero_add]
    by_cases hlt : n < blanks.length
    · have hbyte : charAt (blanks ++ token ++ rest) n = charAt blanks n := by
        rw [List.append_assoc, charAt_append_left _ _ _ hlt]
      have hb := hblanks _ (charAt_mem blanks n hlt)
      rw [← hbyte, ← hch] at hb
      obtain ⟨e1, e2, e3⟩ := setupBody_blank n _ hb
      have hs0 : (forLoop 0 n setupBody ⟨blanks ++ token ++ rest, args, 0, -1, background⟩).start
          = -1 := by rw [hs, if_pos (by omega)]
      rw [storeArg_of_no_start _ hs0] at e1 e2
      exact ⟨e1.trans ha, e2.trans hc, by rw [e3, if_pos (by omega)]⟩
    · have hlt2 : n - blanks.length < token.length := by omega
      have hbyte : charAt (blanks ++ token ++ rest) n = charAt token (n - blanks.length) := by
        rw [List.append_assoc, charAt_append_right _ _ _ (by omega),
          charAt_append_left _ _ _ hlt2]
      obtain ⟨h1, h2, h3, _⟩ := htoken _ (charAt_mem token _ hlt2)
      rw [← hbyte, ← hch] at h1 h2 h3
      obtain ⟨e1, e2, e3⟩ := setupBody_other n _ (by rintro (h | h); exacts [h1 h, h2 h]) h3
      refine ⟨e1.trans ha, e2.trans hc, ?_⟩
      have hnb : ¬ n + 1 ≤ blanks.length := by omega
      rw [e3, if_neg hnb]
      by_cases hle : n ≤ blanks.length
      · have hs1 : (forLoop 0 n setupBody
            ⟨blanks ++ token ++ rest, args, 0, -1, background⟩).start = -1 := by
          rw [hs, if_pos hle]
        have hnl : n = blanks.length := by omega
        rw [if_pos hs1, hnl]
      · have hs1 : (forLoop 0 n setupBody
            ⟨blanks ++ token ++ rest, args, 0, -1, background⟩).start = (blanks.length : Int) := by
          rw [hs, if_neg hle]
        have hne : ¬ (forLoop 0 n setupBody
            ⟨blanks ++ token ++ rest, args, 0, -1, background⟩).start = -1 := by
          rw [hs1]; omega
        rw [if_neg hne, hs1]


theorem cstrAt_token (pre token tail : List Char)
    (htoken : ∀ c ∈ token, c ≠ ' ' ∧ c ≠ '\t' ∧ c ≠ '\n' ∧ c ≠ '&') :
    cstrAt (pre.map setupByte ++ token.map setupByte ++ '\x00' :: tail) pre.length
      = some (token.takeWhile (fun c => c ≠ '\x00')) := by
  have hdrop : (pre.map setupByte ++ token.map setupByte ++ '\x00' :: tail).drop pre.length
      = token ++ '\x00' :: tail := by
    rw [map_setupByte_token token htoken, List.append_assoc, List.drop_left' (by simp)]
  unfold cstrAt
  rw [hdrop, if_pos (by simp), takeWhile_append_stop _ _ _ (by simp)]

theorem takeWhile_of_all {p : Char → Bool} (l : List Char) (h : ∀ c ∈ l, p c = true) :
    l.takeWhile p = l := by
  induction l with
  | nil => rfl
  | cons c t ih =>
    rw [List.takeWhile_cons_of_pos (h c (by simp)), ih (fun x hx => h x (by simp [hx]))]

theorem dropWhile_append_of_all {p : Char → Bool} (a b : List Char) (h : ∀ c ∈ a, p c = true) :
    (a ++ b).dropWhile p = b.dropWhile p := by
  induction a with
  | nil => rfl
  | cons c t ih =>
    rw [List.cons_append, List.dropWhile_cons_of_pos (h c (by simp)),
      ih (fun x hx => h x (by simp [hx]))]

theorem trimmed_single_token (blanks token : List Char)
    (hblanks : ∀ c ∈ blanks, c = ' ' ∨ c = '\t')
    (htoken : ∀ c ∈ token, c ≠ ' ' ∧ c ≠ '\t' ∧ c ≠ '\n' ∧ c ≠ '&') :
    trimmed (blanks ++ token ++ ['\n']) = token := by
  have hsep : ∀ c ∈ blanks, isSeparator c = true := by
    intro c hc
    rcases hblanks c hc with rfl | rfl <;> decide
  have hnot : ∀ c ∈ token, isSeparator c = false := by
    intro c hc
    obtain ⟨h1, h2, h3, _⟩ := htoken c hc
    simp [isSeparator, h1, h2, h3]
  unfold trimmed
  rw [List.append_assoc, dropWhile_append_of_all _ _ hsep]
  cases token with
  | nil => rfl
  | cons x t =>
    have hx : isSeparator x = false := hnot x (by simp)
    rw [List.cons_append, List.dropWhile_cons_of_neg (by simp [hx]), ← List.cons_append,
      List.reverse_append, List.reverse_singleton, List.singleton_append,
      List.dropWhile_cons_of_pos (by decide)]
    have hlast : ∀ l : List Char, l ≠ [] → (∀ c ∈ l, isSeparator c = false) →
        l.reverse.dropWhile isSeparator = l.reverse := by
      intro l hl hall
      obtain ⟨y, r, hyr⟩ := List.exists_cons_of_ne_nil
        (show l.reverse ≠ [] by simpa using hl)
      have hy : isSeparator y = false := hall y (by
        have : y ∈ l.reverse := by rw [hyr]; simp
        simpa using this)
      rw [hyr, List.dropWhile_cons_of_neg (by simp [hy])]
    rw [hlast (x :: t) (by simp) hnot, List.reverse_reverse]

theorem setup_single_token (blanks token inputBuffer : List Char)
    (args : List (Option Nat)) (background : Int) (hargs : args.length = MAX_LINE)
    (hblanks : ∀ c ∈ blanks, c = ' ' ∨ c = '\t')
    (htoken : ∀ c ∈ token, c ≠ ' ' ∧ c ≠ '\t' ∧ c ≠ '\n' ∧ c ≠ '&') :
    ∃ st, setup (ReadResult.data (blanks ++ token ++ ['\n'])) inputBuffer args background
        = SetupResult.done st ∧
      untilNull st.args = (if token = [] then [] else [blanks.length]) ∧
      st.inputBuffer = blanks.map setupByte ++ token.map setupByte ++
        '\x00' :: inputBuffer.drop (blanks ++ token ++ ['\n']).length := by
  have hread : blanks ++ token ++ ['\n'] ≠ [] := by simp
  have hlenb : (blanks ++ token ++ ['\n']).length = blanks.length + token.length + 1 := by
    simp [Nat.add_assoc]
  obtain ⟨a0, a1, arest, hargs2⟩ : ∃ a0 a1 arest, args = a0 :: a1 :: arest := by
    match args, hargs with
    | a0 :: a1 :: arest, _ => exact ⟨a0, a1, arest, rfl⟩
  obtain ⟨st, hst, hb, _, hct⟩ := setup_data _ inputBuffer args background hread
  have hargsst : st.args = (forLoop 0 (blanks ++ token ++ ['\n']).length setupBody
      ⟨blanks ++ token ++ ['\n'] ++ inputBuffer.drop (blanks ++ token ++ ['\n']).length, args, 0, -1,
        background⟩).args.set st.ct none := by
    have h2 := setup_eq (blanks ++ token ++ ['\n']) inputBuffer args background hread
    rw [hst] at h2
    cases h2
    rfl
  refine ⟨st, hst, ?_, ?_⟩
  swap
  · rw [hb, List.map_append, List.map_append]
    simp [setupByte]
  clear hst hb
  generalize inputBuffer.drop (blanks ++ token ++ ['\n']).length = tail at hct hargsst
  -- the state before the newline is read
  obtain ⟨ha, hc, hs⟩ := setupLoop_single_token blanks token (['\n'] ++ tail) args background
    hblanks htoken (blanks.length + token.length) le_rfl
  rw [← List.append_assoc] at ha hc hs
  have hbuflen : blanks.length + token.length < (blanks ++ token ++ ['\n'] ++ tail).length := by
    simp
  have hch := setupLoop_charAt_eq ⟨blanks ++ token ++ ['\n'] ++ tail, args, 0, -1, background⟩
    (blanks.length + token.length) hbuflen
  simp only [] at hch
  have hnl : charAt (blanks ++ token ++ ['\n'] ++ tail) (blanks.length + token.length) = '\n' := by
    rw [List.append_assoc, charAt_append_right _ _ _ (by simp)]
    simp [charAt]
  rw [hnl] at hch
  obtain ⟨e1, e2, _⟩ := setupBody_newline (blanks.length + token.length) _ hch
  rw [hlenb, forLoop, Nat.zero_add] at hargsst hct
  · by_cases htok : token = []
    · have hs1 : (forLoop 0 (blanks.length + token.length) setupBody
          ⟨blanks ++ token ++ ['\n'] ++ tail, args, 0, -1, background⟩).start = -1 := by
        rw [hs, if_pos (by simp [htok])]
      rw [storeArg_of_no_start _ hs1, ha, hc] at e1
      rw [storeArg_of_no_start _ hs1, hc] at e2
      rw [hargsst, hct, e1, e2, hargs2, if_pos htok]
      rfl
    · have hpos : 0 < token.length := List.length_pos.mpr htok
      have hs1 : (forLoop 0 (blanks.length + token.length) setupBody
          ⟨blanks ++ token ++ ['\n'] ++ tail, args, 0, -1, background⟩).start = (blanks.length : Int) := by
        rw [hs, if_neg (by omega)]
      have hne : (forLoop 0 (blanks.length + token.length) setupBody
          ⟨blanks ++ token ++ ['\n'] ++ tail, args, 0, -1, background⟩).start ≠ -1 := by
        rw [hs1]; omega
      rw [storeArg_of_start _ hne] at e1 e2
      simp only [] at e1 e2
      rw [ha, hc, hs1] at e1
      rw [hc] at e2
      rw [hargsst, hct, e1, e2, hargs2, if_neg htok]
      simp [untilNull]

/-- What holds of C11: for a line made of blanks, then at most one token
without `&` and NUL, then the newline, the tokens `setup` stores in `args`,
read as C strings and joined with single spaces, give the trimmed line. -/
theorem single_token_round_trip (blanks token inputBuffer : List Char)
    (args : List (Option Nat)) (background : Int) (hargs : args.length = MAX_LINE)
    (hblanks : ∀ c ∈ blanks, c = ' ' ∨ c = '\t')
    (htoken : ∀ c ∈ token, c ≠ ' ' ∧ c ≠ '\t' ∧ c ≠ '\n' ∧ c ≠ '&')
    (hnul : '\x00' ∉ token) :
    ∃ st tokens,
      setup (ReadResult.data (blanks ++ token ++ ['\n'])) inputBuffer args background
        = SetupResult.done st ∧
      argStrings st = some tokens ∧
      joinWithSpaces tokens = trimmed (blanks ++ token ++ ['\n']) := by
  obtain ⟨st, hst, hargsst, hbuf⟩ :=
    setup_single_token blanks token inputBuffer args background hargs hblanks htoken
  rw [trimmed_single_token blanks token hblanks htoken]
  by_cases htok : token = []
  · refine ⟨st, [], hst, ?_, ?_⟩
    · unfold argStrings
      rw [hargsst, if_pos htok]
      rfl
    · rw [htok]; rfl
  · refine ⟨st, [token], hst, ?_, ?_⟩
    · have hc := cstrAt_token blanks token
        (inputBuffer.drop (blanks ++ token ++ ['\n']).length) htoken
      rw [takeWhile_of_all token (fun c hc => by
        have : c ≠ '\x00' := fun h => hnul (h ▸ hc)
        simpa using this)] at hc
      unfold argStrings
      rw [hargsst, if_neg htok, hbuf]
      simp only [stringsAt, hc]
    · simp [joinWithSpaces, List.intercalate]

theorem single_token_round_trip_witness :
    ∃ st tokens,
      setup (ReadResult.data ([' '] ++ ['l', 's'] ++ ['\n'])) (List.replicate 80 'z')
        (List.replicate 80 none) 0 = SetupResult.done st ∧
      argStrings st = some tokens ∧
      joinWithSpaces tokens = trimmed ([' '] ++ ['l', 's'] ++ ['\n']) :=
  single_token_round_trip [' '] ['l', 's'] (List.replicate 80 'z') (List.replicate 80 none) 0
    (by decide) (by decide) (by decide) (by decide)

/-- C11. For the line `ls -l` the two pointers stored in `args` read as the C
strings `ls -l` and `-l`: the separator is overwritten by a space, not by the
NUL the comment on that statement announces, so the first token is not ended.
Joined with a space they give `ls -l -l`, not the trimmed line `ls -l`. -/
theorem two_tokens_no_round_trip :
    ∃ st, setup (ReadResult.data ['l', 's', ' ', '-', 'l', '\n']) (List.replicate 80 'z')
        (List.replicate 80 none) 0 = SetupResult.done st ∧
      argStrings st = some [['l', 's', ' ', '-', 'l'], ['-', 'l']] ∧
      joinWithSpaces [['l', 's', ' ', '-', 'l'], ['-', 'l']]
        = ['l', 's', ' ', '-', 'l', ' ', '-', 'l'] ∧
      trimmed ['l', 's', ' ', '-', 'l', '\n'] = ['l', 's', ' ', '-', 'l'] := by
  refine ⟨_, rfl, by decide, by decide, by decide⟩


/-! ## Properties of `run` -/

theorem span_cases (q : Char → Bool) (t : List Char) :
    (t.dropWhile q = [] ∧ t.takeWhile q = t) ∨
      ∃ x rest, t.dropWhile q = x :: rest ∧ q x = false ∧ t = t.takeWhile q ++ x :: rest := by
  induction t with
  | nil => exact Or.inl ⟨rfl, rfl⟩
  | cons c t ih =>
    by_cases hc : q c = true
    · rw [List.dropWhile_cons_of_pos hc, List.takeWhile_cons_of_pos hc]
      rcases ih with ⟨h1, h2⟩ | ⟨x, rest, h1, h2, h3⟩
      · exact Or.inl ⟨h1, by rw [h2]⟩
      · exact Or.inr ⟨x, rest, h1, h2, by rw [List.cons_append, ← h3]⟩
    · rw [List.dropWhile_cons_of_neg hc, List.takeWhile_cons_of_neg hc]
      exact Or.inr ⟨c, t, rfl, by simpa using hc, rfl⟩

theorem maximalRuns_nil (p : Char → Bool) : maximalRuns p [] = [] := by
  simp [maximalRuns]

theorem maximalRuns_cons_sep (p : Char → Bool) (x : Char) (xs : List Char) (hx : p x = true) :
    maximalRuns p (x :: xs) = maximalRuns p xs := by
  unfold maximalRuns
  rw [List.splitOnP_cons, if_pos hx, List.filter_cons_of_neg (by simp)]

theorem maximalRuns_append_seps (p : Char → Bool) (a b : List Char) (h : ∀ c ∈ a, p c = true) :
    maximalRuns p (a ++ b) = maximalRuns p b := by
  induction a with
  | nil => rfl
  | cons c t ih =>
    rw [List.cons_append, maximalRuns_cons_sep p c _ (h c (by simp)),
      ih (fun x hx => h x (by simp [hx]))]

theorem maximalRuns_token_sep (p : Char → Bool) (token rest : List Char) (x : Char)
    (htoken : ∀ c ∈ token, p c = false) (hne : token ≠ []) (hx : p x = true) :
    maximalRuns p (token ++ x :: rest) = token :: maximalRuns p rest := by
  unfold maximalRuns
  rw [List.splitOnP_first p token (fun c hc => by simp [htoken c hc]) x hx,
    List.filter_cons_of_pos (by simpa using hne)]

theorem maximalRuns_token (p : Char → Bool) (token : List Char)
    (htoken : ∀ c ∈ token, p c = false) (hne : token ≠ []) :
    maximalRuns p token = [token] := by
  unfold maximalRuns
  rw [List.splitOnP_eq_single p token (fun c hc => by simp [htoken c hc]),
    List.filter_cons_of_pos (by simpa using hne)]
  rfl

/-- The decomposition `strtok` works on: the string is spaces only, or it is
made of spaces, a non-empty token without space, and then either nothing or a
space and the rest. -/
theorem strtokSpace_cases (s : CStr) :
    (strtokSpace s = none ∧ ∀ c ∈ s, c = ' ') ∨
    ∃ spaces token rest, (∀ c ∈ spaces, c = ' ') ∧ token ≠ [] ∧ (∀ c ∈ token, c ≠ ' ') ∧
      strtokSpace s = some (token, rest) ∧
      (s = spaces ++ token ∧ rest = [] ∨ s = spaces ++ token ++ ' ' :: rest) := by
  have hspaces : ∀ c ∈ s.takeWhile (fun c => decide (c = ' ')), c = ' ' := by
    intro c hc
    simpa using List.mem_takeWhile_imp hc
  rcases span_cases (fun c => decide (c = ' ')) s with ⟨h1, h2⟩ | ⟨x, t, h1, h2, h3⟩
  · left
    refine ⟨by unfold strtokSpace; simp only []; rw [if_pos h1], ?_⟩
    rw [← h2]
    exact hspaces
  · right
    have hx : x ≠ ' ' := by simpa using h2
    have htoken : ∀ c ∈ (x :: t).takeWhile (fun c => decide (c ≠ ' ')), c ≠ ' ' := by
      intro c hc
      simpa using List.mem_takeWhile_imp hc
    have htokne : (x :: t).takeWhile (fun c => decide (c ≠ ' ')) ≠ [] := by
      rw [List.takeWhile_cons_of_pos (by simpa using hx)]
      simp
    have hst : strtokSpace s = some ((x :: t).takeWhile (fun c => decide (c ≠ ' ')),
        ((x :: t).dropWhile (fun c => decide (c ≠ ' '))).drop 1) := by
      unfold strtokSpace
      simp only []
      rw [h1, if_neg (by simp)]
    refine ⟨_, _, _, hspaces, htokne, htoken, hst, ?_⟩
    rcases span_cases (fun c => decide (c ≠ ' ')) (x :: t) with ⟨g1, g2⟩ | ⟨y, r, g1, g2, g3⟩
    · left
      refine ⟨?_, by rw [g1]; rfl⟩
      rw [g2]
      exact h3
    · right
      have hy : y = ' ' := by simpa using g2
      subst hy
      rw [g1, List.drop_one, List.tail_cons, List.append_assoc, ← g3]
      exact h3

theorem runLoop_nil (fuel : Nat) : runLoop fuel [] = [] := by
  cases fuel with
  | zero => rfl
  | succ n => rfl

/-- With enough turns the loop of `run` stores the maximal runs of characters
other than the space. -/
theorem runLoop_eq_maximalRuns (fuel : Nat) :
    ∀ s : CStr, s.length < fuel → runLoop fuel s = maximalRuns (fun c => decide (c = ' ')) s := by
  induction fuel with
  | zero => intro s h; omega
  | succ fuel ih =>
    intro s hlen
    rcases strtokSpace_cases s with ⟨h1, h2⟩ | ⟨spaces, token, rest, hsp, hne, htok, hst, hs⟩
    · rw [runLoop, h1]
      have := maximalRuns_append_seps (fun c => decide (c = ' ')) s []
        (fun c hc => by simpa using h2 c hc)
      rw [List.append_nil] at this
      rw [this, maximalRuns_nil]
    · rw [runLoop, hst]
      simp only []
      have hsp' : ∀ c ∈ spaces, (fun c => decide (c = ' ')) c = true := fun c hc => by
        simpa using hsp c hc
      have htok' : ∀ c ∈ token, (fun c => decide (c = ' ')) c = false := fun c hc => by
        simpa using htok c hc
      rcases hs with ⟨hs, hrest⟩ | hs
      · rw [hrest, runLoop_nil, hs, maximalRuns_append_seps _ _ _ hsp',
          maximalRuns_token _ _ htok' hne]
      · have hlen2 : rest.length < fuel := by
          have : s.length = spaces.length + token.length + (rest.length + 1) := by
            rw [hs]; simp [Nat.add_assoc]
          omega
        rw [ih rest hlen2, hs, List.append_assoc, maximalRuns_append_seps _ _ _ hsp',
          maximalRuns_token_sep _ _ _ _ htok' hne (by simp)]

/-- The loop of `run` stores at most one token for every two characters. -/
theorem runLoop_length (fuel : Nat) :
    ∀ s : CStr, 2 * (runLoop fuel s).length ≤ s.length + 1 := by
  induction fuel with
  | zero => intro s; simp [runLoop]
  | succ fuel ih =>
    intro s
    rcases strtokSpace_cases s with ⟨h1, _⟩ | ⟨spaces, token, rest, _, hne, _, hst, hs⟩
    · rw [runLoop, h1]; simp
    · rw [runLoop, hst]
      simp only [List.length_cons]
      have hpos : 0 < token.length := List.length_pos.mpr hne
      have := ih rest
      rcases hs with ⟨hs, hrest⟩ | hs
      · rw [hrest, runLoop_nil, hs]; simp; omega
      · rw [hs]; simp; omega


theorem setupByte_eq_space_iff (c : Char) : setupByte c = ' ' ↔ (c = ' ' ∨ c = '\t') := by
  unfold setupByte
  by_cases h1 : c = ' ' ∨ c = '\t'
  · rw [if_pos h1]; exact ⟨fun _ => h1, fun _ => rfl⟩
  · rw [if_neg h1]
    by_cases h2 : c = '\n' ∨ c = '&'
    · rw [if_pos h2]
      exact ⟨fun h => absurd h (by decide), fun h => absurd h h1⟩
    · rw [if_neg h2]
      exact ⟨fun h => Or.inl h, fun h => absurd h h1⟩

theorem setupByte_of_plain (c : Char) (h1 : ¬ (c = ' ' ∨ c = '\t')) (h2 : c ≠ '\n') (h3 : c ≠ '&') :
    setupByte c = c := by
  unfold setupByte
  rw [if_neg h1, if_neg (by rintro (h | h); exacts [h2 h, h3 h])]

theorem splitOnP_map_setupByte (content : List Char) (h : ∀ c ∈ content, c ≠ '\n' ∧ c ≠ '&') :
    (content.map setupByte).splitOnP (fun c => decide (c = ' ')) = content.splitOnP isBlank := by
  induction content with
  | nil => rfl
  | cons c t ih =>
    have ih := ih (fun x hx => h x (by simp [hx]))
    obtain ⟨h2, h3⟩ := h c (by simp)
    rw [List.map_cons, List.splitOnP_cons, List.splitOnP_cons, ih]
    by_cases hb : c = ' ' ∨ c = '\t'
    · have e1 : decide (setupByte c = ' ') = true := by
        simpa using (setupByte_eq_space_iff c).mpr hb
      have e2 : isBlank c = true := by simpa [isBlank] using hb
      rw [if_pos e1, if_pos e2]
    · have e1 : ¬ decide (setupByte c = ' ') = true := by
        simpa using fun hh => hb ((setupByte_eq_space_iff c).mp hh)
      have e2 : ¬ isBlank c = true := by simpa [isBlank] using hb
      rw [if_neg e1, if_neg e2, setupByte_of_plain c hb h2 h3]

theorem map_setupByte_no_nul (content : List Char)
    (h : ∀ c ∈ content, c ≠ '\n' ∧ c ≠ '&' ∧ c ≠ '\x00') :
    ∀ c ∈ content.map setupByte, c ≠ '\x00' := by
  intro c hc
  obtain ⟨d, hd, rfl⟩ := List.mem_map.mp hc
  obtain ⟨h1, h2, h3⟩ := h d hd
  by_cases hb : d = ' ' ∨ d = '\t'
  · rw [(setupByte_eq_space_iff d).mpr hb]; decide
  · rw [setupByte_of_plain d hb h1 h2]; exact h3

/-- C18. For a line of at most `MAX_LINE` bytes that ends in its only newline
and holds neither `&` nor NUL, `setup` leaves in `inputBuffer` a C string from
which `run` builds exactly the maximal runs of characters of the line, before
the newline, that are neither space nor tab, in order, followed by `NULL`. -/
theorem run_arguments_are_runs (content inputBuffer : List Char) (args : List (Option Nat))
    (background : Int) (hlen : content.length + 1 ≤ MAX_LINE) (hnl : '\n' ∉ content)
    (hamp : '&' ∉ content) (hnul : '\x00' ∉ content) :
    ∃ st buffer,
      setup (ReadResult.data (content ++ ['\n'])) inputBuffer args background
        = SetupResult.done st ∧
      cstrAt st.inputBuffer 0 = some buffer ∧
      runArgs buffer = Outcome.returned ((maximalRuns isBlank content).map some ++ [none]) := by
  obtain ⟨st, hst, hbuf, _, _⟩ :=
    setup_data (content ++ ['\n']) inputBuffer args background (by simp)
  have hall : ∀ c ∈ content, c ≠ '\n' ∧ c ≠ '&' ∧ c ≠ '\x00' := fun c hc =>
    ⟨fun h => hnl (h ▸ hc), fun h => hamp (h ▸ hc), fun h => hnul (h ▸ hc)⟩
  have hbuf2 : st.inputBuffer
      = content.map setupByte ++ '\x00' :: inputBuffer.drop (content ++ ['\n']).length := by
    rw [hbuf, List.map_append]
    simp [setupByte]
  have hcstr : cstrAt st.inputBuffer 0 = some (content.map setupByte) := by
    unfold cstrAt
    rw [List.drop_zero, hbuf2, if_pos (by simp), takeWhile_append_stop _ _ _ (by simp),
      takeWhile_of_all _ (fun c hc => by simpa using map_setupByte_no_nul content hall c hc)]
  refine ⟨st, content.map setupByte, hst, hcstr, ?_⟩
  have hruns : runLoop ((content.map setupByte).length + 1) (content.map setupByte)
      = maximalRuns isBlank content := by
    rw [runLoop_eq_maximalRuns _ _ (by omega)]
    unfold maximalRuns
    rw [splitOnP_map_setupByte content (fun c hc => ⟨(hall c hc).1, (hall c hc).2.1⟩)]
  have hcount := runLoop_length ((content.map setupByte).length + 1) (content.map setupByte)
  rw [hruns, List.length_map] at hcount
  unfold runArgs
  simp only []
  rw [hruns, if_neg]
  have h80 : MAX_LINE = 80 := rfl
  have h40 : MAX_LINE / 2 = 40 := rfl
  omega

theorem run_arguments_are_runs_witness :
    ∃ st buffer,
      setup (ReadResult.data (['l', 's', '\t', ' ', '-', 'l'] ++ ['\n'])) (List.replicate 80 'z')
        (List.replicate 80 none) 0 = SetupResult.done st ∧
      cstrAt st.inputBuffer 0 = some buffer ∧
      runArgs buffer = Outcome.returned
        ((maximalRuns isBlank ['l', 's', '\t', ' ', '-', 'l']).map some ++ [none]) :=
  run_arguments_are_runs ['l', 's', '\t', ' ', '-', 'l'] (List.replicate 80 'z')
    (List.replicate 80 none) 0 (by decide) (by decide) (by decide) (by decide)


/-! ## The number of pointers `setup` stores -/

theorem storeArg_ct (st : SetupState) :
    (storeArg st).ct = (if st.start = -1 then st.ct else st.ct + 1) := by
  unfold storeArg
  by_cases h : st.start = -1
  · rw [if_neg (by simp [h]), if_pos h]
  · rw [if_pos h, if_neg h]

/-- As long as no newline has been read, every pointer stored has cost two
bytes, and a token that has begun has cost one. -/
theorem setupLoop_count (st : SetupState) (hct : st.ct = 0) (hstart : st.start = -1) (n : Nat)
    (hn : n ≤ st.inputBuffer.length) (hnl : ∀ i, i < n → charAt st.inputBuffer i ≠ '\n') :
    2 * (forLoop 0 n setupBody st).ct + (if (forLoop 0 n setupBody st).start = -1 then 0 else 1)
      ≤ n := by
  induction n with
  | zero => simp [forLoop, hct, hstart]
  | succ n ih =>
    have ih := ih (by omega) (fun i hi => hnl i (by omega))
    have hch := setupLoop_charAt_eq st n (by omega)
    have hnot := hnl n (by omega)
    rw [← hch] at hnot
    rw [forLoop, Nat.zero_add]
    by_cases hb : charAt (forLoop 0 n setupBody st).inputBuffer n = ' ' ∨
        charAt (forLoop 0 n setupBody st).inputBuffer n = '\t'
    · obtain ⟨_, e2, e3⟩ := setupBody_blank n _ hb
      rw [e2, e3, storeArg_ct, if_pos rfl]
      by_cases hs : (forLoop 0 n setupBody st).start = -1
      · rw [if_pos hs] at ih ⊢; omega
      · rw [if_neg hs] at ih ⊢; omega
    · obtain ⟨_, e2, e3⟩ := setupBody_other n _ hb hnot
      rw [e2, e3]
      by_cases hs : (forLoop 0 n setupBody st).start = -1
      · rw [if_pos hs] at ih ⊢
        rw [if_neg (by omega)]
        omega
      · rw [if_neg hs] at ih ⊢
        rw [if_neg hs]
        omega

/-- What holds of C13: when the bytes read hold no newline before their last
byte, `setup` stores at most one pointer for every two bytes, hence at most
forty for `MAX_LINE` bytes. -/
theorem setup_count_single_line (content inputBuffer : List Char) (last : Char)
    (args : List (Option Nat)) (background : Int) (hnl : '\n' ∉ content) :
    ∃ st, setup (ReadResult.data (content ++ [last])) inputBuffer args background
        = SetupResult.done st ∧ 2 * st.ct ≤ (content ++ [last]).length := by
  obtain ⟨st, hst, _, _, hct⟩ :=
    setup_data (content ++ [last]) inputBuffer args background (by simp)
  refine ⟨st, hst, ?_⟩
  generalize inputBuffer.drop (content ++ [last]).length = tail at hct
  have hlen : (content ++ [last]).length = content.length + 1 := by simp
  rw [hct, hlen, forLoop, Nat.zero_add]
  have hJ := setupLoop_count ⟨content ++ [last] ++ tail, args, 0, -1, background⟩ rfl rfl
    content.length (by simp) (fun i hi => by
      show charAt (content ++ [last] ++ tail) i ≠ '\n'
      rw [List.append_assoc, charAt_append_left _ _ _ hi]
      intro h
      exact hnl (h ▸ charAt_mem content i hi))
  by_cases hb : charAt (forLoop 0 content.length setupBody
      ⟨content ++ [last] ++ tail, args, 0, -1, background⟩).inputBuffer content.length = ' ' ∨
      charAt (forLoop 0 content.length setupBody
      ⟨content ++ [last] ++ tail, args, 0, -1, background⟩).inputBuffer content.length = '\t'
  · obtain ⟨_, e2, _⟩ := setupBody_blank content.length _ hb
    rw [e2, storeArg_ct]
    split_ifs at hJ ⊢ <;> omega
  · by_cases hn : charAt (forLoop 0 content.length setupBody
        ⟨content ++ [last] ++ tail, args, 0, -1, background⟩).inputBuffer content.length = '\n'
    · obtain ⟨_, e2, _⟩ := setupBody_newline content.length _ hn
      rw [e2, storeArg_ct]
      split_ifs at hJ ⊢ <;> omega
    · obtain ⟨_, e2, _⟩ := setupBody_other content.length _ hb hn
      rw [e2]
      split_ifs at hJ <;> omega


end Dwimsh
